import Mathlib

/-!
Verification development for the keg delivery/return tracking application
(livraison-et-suivi-futs).  The Python source is shallowly embedded:

* Python `str` values are embedded as `List Char`;
* Python `float` money amounts are embedded as `ℚ`;
* Python `int` is embedded as `Int` (`Nat` for database ids);
* nullable SQL columns are embedded as `Option`;
* the movement table is embedded as a `List Movement`, and the SQL
  aggregate expressions of `app.py` as list sums over filtered maps;
* the request-handling route `movement_new` (POST branch, catalog-variant
  path: `custom_name` empty, valid posted `client_id`, empty `when` field)
  is embedded as a pure function on an explicit application state.

Every definition is written from the corresponding source function and is
executable, so that concrete scenarios evaluate by `decide` / `rfl`.
-/

/-- The movement type enum: the `type` column of `movements`
(`OUT`, `IN`, `DEFECT`, `FULL`, cf. `utils.MOV_TYPES`). -/
inductive MType
  | OUT
  | IN
  | DEFECT
  | FULL
deriving DecidableEq

/-- A catalog variant: physical size in liters (`size_l`) and optional
catalog price (`price_ttc`), cf. `models.Variant` as used by `app.py`
and `utils.py`. -/
structure Variant where
  size_l : Int
  price_ttc : Option ℚ
deriving DecidableEq

/-- A ledger entry, cf. `models.Movement` as used by `app.py`/`utils.py`:
id, type, client and variant references, quantity, applied unit price and
deposit per keg (nullable at the balance-engine layer), free-text note. -/
structure Movement where
  id : Nat
  mtype : MType
  client_id : Nat
  variant_id : Nat
  qty : Int
  unit_price_ttc : Option ℚ
  deposit_per_keg : Option ℚ
  notes : List Char
deriving DecidableEq

/-- The five-key equipment dictionary handled by the codec,
cf. `app.EQ_KEYS = ("tireuse", "co2", "comptoir", "tonnelle", "ecocup")`. -/
structure Eq5 where
  tireuse : Int
  co2 : Int
  comptoir : Int
  tonnelle : Int
  ecocup : Int
deriving DecidableEq

/-- The all-zero equipment dictionary (`{k: 0 for k in EQ_KEYS}`). -/
def zeroEq5 : Eq5 := ⟨0, 0, 0, 0, 0⟩

/-! ### Python string primitives on `List Char` -/

/-- Whitespace test used by Python `str.strip()` (ASCII fragment). -/
def isSpaceB (c : Char) : Bool := c = ' ' || c = '\t' || c = '\n' || c = '\r'

/-- Left part of Python `str.strip()`. -/
def pyStripL (xs : List Char) : List Char := xs.dropWhile isSpaceB

/-- Right part of Python `str.strip()`. -/
def pyStripR (xs : List Char) : List Char := (xs.reverse.dropWhile isSpaceB).reverse

/-- Python `str.strip()`. -/
def pyStrip (xs : List Char) : List Char := pyStripR (pyStripL xs)

/-- Decimal digit characters, as produced by Python `str(int)` for 0–9. -/
def digitChar : Nat → Char
  | 0 => '0'
  | 1 => '1'
  | 2 => '2'
  | 3 => '3'
  | 4 => '4'
  | 5 => '5'
  | 6 => '6'
  | 7 => '7'
  | 8 => '8'
  | 9 => '9'
  | _ => '*'

/-- Fuel-driven decimal rendering of a natural number (most significant
digit first); total and kernel-reducible. -/
def natToCharsAux : Nat → Nat → List Char
  | 0, _ => []
  | fuel + 1, n =>
    if n < 10 then [digitChar n]
    else natToCharsAux fuel (n / 10) ++ [digitChar (n % 10)]

/-- Decimal rendering of a natural number, Python `str(n)` for `n ≥ 0`. -/
def natToChars (n : Nat) : List Char := natToCharsAux (n + 1) n

/-- Python `str(v)` on an `int` (f-string formatting of the codec values). -/
def intToChars (v : Int) : List Char :=
  if v < 0 then '-' :: natToChars v.natAbs else natToChars v.natAbs

/-- Value of a decimal digit character, `none` on non-digits. -/
def digitVal (c : Char) : Option Nat :=
  if '0' ≤ c && c ≤ '9' then some (c.toNat - 48) else none

/-- Digit-string parse helper (left fold over the digits). -/
def parseDigitsAux (xs : List Char) : Option Nat :=
  xs.foldl
    (fun acc c =>
      match acc, digitVal c with
      | some a, some d => some (10 * a + d)
      | _, _ => none)
    (some 0)

/-- Parse of a nonempty all-digit string, `none` otherwise. -/
def parseDigits (xs : List Char) : Option Nat :=
  match xs with
  | [] => none
  | _ => parseDigitsAux xs

/-- Python `int(str)` on an already-stripped string: optional sign then
decimal digits; `none` models the `ValueError` case. -/
def pyInt (xs : List Char) : Option Int :=
  match xs with
  | [] => none
  | c :: rest =>
    if c = '-' then (parseDigits rest).map (fun n => -(n : Int))
    else if c = '+' then (parseDigits rest).map (fun n => (n : Int))
    else (parseDigits (c :: rest)).map (fun n => (n : Int))

/-- The `try: int(val.strip()) except: 0` idiom of `unpack_equipment`. -/
def pyIntOr0 (xs : List Char) : Int := (pyInt (pyStrip xs)).getD 0

/-- Python `str.lower()` (ASCII fragment, enough for the codec keys). -/
def lowerChar (c : Char) : Char :=
  if 'A' ≤ c && c ≤ 'Z' then Char.ofNat (c.toNat + 32) else c

/-- Python `str.lower()` on a whole string. -/
def lowerList (xs : List Char) : List Char := xs.map lowerChar

/-- `xs.take sep.length = sep`: does `xs` start with `sep`. -/
def startsWithL (sep xs : List Char) : Bool := decide (xs.take sep.length = sep)

/-- Split at the first occurrence of `sep`, Python `txt.split(sep, 1)`
when `sep in txt` (`none` models the not-found case). -/
def splitFirst (sep : List Char) : List Char → Option (List Char × List Char)
  | [] => if sep = [] then some ([], []) else none
  | c :: rest =>
    if startsWithL sep (c :: rest) then some ([], (c :: rest).drop sep.length)
    else
      match splitFirst sep rest with
      | some (h, t) => some (c :: h, t)
      | none => none

/-- Python `sep in txt` (substring containment). -/
def containsSub (sep xs : List Char) : Bool := (splitFirst sep xs).isSome

/-- Python `txt.split(c)` (full split on a one-character separator). -/
def splitOnChar (c : Char) : List Char → List (List Char)
  | [] => [[]]
  | x :: rest =>
    match splitOnChar c rest with
    | [] => [[x]]
    | h :: t => if x = c then [] :: h :: t else (x :: h) :: t

/-- Python `sep.join(parts)`. -/
def joinWith (sep : List Char) : List (List Char) → List Char
  | [] => []
  | [p] => p
  | p :: q :: rest => p ++ sep ++ joinWith sep (q :: rest)

/-! ### The Equipment/Cup codec (`app.pack_equipment` / `app.unpack_equipment`) -/

/-- Key `"tireuse"`. -/
def tireuseKey : List Char := "tireuse".toList

/-- Key `"co2"`. -/
def co2Key : List Char := "co2".toList

/-- Key `"comptoir"`. -/
def comptoirKey : List Char := "comptoir".toList

/-- Key `"tonnelle"`. -/
def tonnelleKey : List Char := "tonnelle".toList

/-- Key `"ecocup"`. -/
def ecocupKey : List Char := "ecocup".toList

/-- The separator token `"||EQ|"` between the human comment and the
structured equipment block. -/
def SEP : List Char := "||EQ|".toList

/-- The dictionary as the ordered key/value list `for k in EQ_KEYS`. -/
def eqPairs (e : Eq5) : List (List Char × Int) :=
  [(tireuseKey, e.tireuse), (co2Key, e.co2), (comptoirKey, e.comptoir),
   (tonnelleKey, e.tonnelle), (ecocupKey, e.ecocup)]

/-- `app.pack_equipment`: strip the comment, render the nonzero keys as
`key=value` pairs joined by `;`, append `||EQ|` block, strip the result. -/
def pack_equipment (notes_text : List Char) (eq : Eq5) : List Char :=
  let clean := pyStrip notes_text
  let parts := ((eqPairs eq).filter fun p => decide (p.2 ≠ 0)).map
    fun p => p.1 ++ '=' :: intToChars p.2
  match parts with
  | [] => clean
  | _ => pyStrip (clean ++ ' ' :: (SEP ++ joinWith [';'] parts))

/-- `eq[k] = val` for a recognized key `k` (`if k in eq` in the source). -/
def setEqKey (d : Eq5) (k : List Char) (v : Int) : Eq5 :=
  if k = tireuseKey then { d with tireuse := v }
  else if k = co2Key then { d with co2 := v }
  else if k = comptoirKey then { d with comptoir := v }
  else if k = tonnelleKey then { d with tonnelle := v }
  else if k = ecocupKey then { d with ecocup := v }
  else d

/-- One iteration of the `unpack_equipment` pair loop: split the pair at
the first `=`, normalize the key, parse the value, store if recognized. -/
def applyPair (d : Eq5) (p : List Char) : Eq5 :=
  match splitFirst ['='] p with
  | none => d
  | some (k, val) => setEqKey d (lowerList (pyStrip k)) (pyIntOr0 val)

/-- `app.unpack_equipment`: split off the `||EQ|` block if present, parse
its `;`-separated `key=value` pairs, return the dictionary and the
stripped human comment. -/
def unpack_equipment (notes_text : List Char) : Eq5 × List Char :=
  match notes_text with
  | [] => (zeroEq5, [])
  | txt =>
    match splitFirst SEP txt with
    | some (human, eqpart) =>
      (((splitOnChar ';' (pyStrip eqpart)).foldl applyPair zeroEq5), pyStrip human)
    | none => (zeroEq5, pyStrip txt)

/-! ### Balance expressions of `app.py` (SQL `case` expressions) -/

/-- The default deposit per keg, `utils.DEFAULT_DEPOSIT = 30.0` (also the
literal `30` fallback of `movement_new`). -/
def DEFAULT_DEPOSIT : ℚ := 30

/-- `func.coalesce(col, 0.0)` on a nullable monetary column. -/
def coalesce0 (o : Option ℚ) : ℚ := o.getD 0

/-- `app.BEER_VALUE_EXPR`: `OUT ↦ qty*price`, `DEFECT ↦ -qty*price`,
else `0` (price read through `coalesce(·, 0.0)`). -/
def BEER_VALUE_EXPR (m : Movement) : ℚ :=
  match m.mtype with
  | .OUT => (m.qty : ℚ) * coalesce0 m.unit_price_ttc
  | .DEFECT => -((m.qty : ℚ) * coalesce0 m.unit_price_ttc)
  | _ => 0

/-- `app.DEPOSIT_VALUE_EXPR`: `OUT ↦ qty*dep`, `IN ↦ -qty*dep`,
`DEFECT ↦ -qty*dep`, else `0`. -/
def DEPOSIT_VALUE_EXPR (m : Movement) : ℚ :=
  match m.mtype with
  | .OUT => (m.qty : ℚ) * coalesce0 m.deposit_per_keg
  | .IN => -((m.qty : ℚ) * coalesce0 m.deposit_per_keg)
  | .DEFECT => -((m.qty : ℚ) * coalesce0 m.deposit_per_keg)
  | .FULL => 0

/-- `app.STOCK_EXPR`: `OUT ↦ qty`, `IN ↦ -qty`, `DEFECT ↦ -qty`, else `0`. -/
def STOCK_EXPR (m : Movement) : Int :=
  match m.mtype with
  | .OUT => m.qty
  | .IN => -m.qty
  | .DEFECT => -m.qty
  | .FULL => 0

/-- `SUM(BEER_VALUE_EXPR)` filtered by client, as in `app.client_detail`
(`beer_billed_cum`) and the `app.index` query. -/
def beer_billed_cum (l : List Movement) (cid : Nat) : ℚ :=
  ((l.filter fun m => decide (m.client_id = cid)).map BEER_VALUE_EXPR).sum

/-- `SUM(DEPOSIT_VALUE_EXPR)` filtered by client (`deposit_in_play`). -/
def deposit_in_play (l : List Movement) (cid : Nat) : ℚ :=
  ((l.filter fun m => decide (m.client_id = cid)).map DEPOSIT_VALUE_EXPR).sum

/-- The `in_place_total` aggregate of `app.client_detail`: over movements
of the client joined with their variant, `OUT` on a `size_l > 0` variant
counts `+qty`, `IN`/`DEFECT` on a `size_l > 0` variant counts `-qty`,
everything else counts `0`. -/
def in_place_total (vars : Nat → Variant) (l : List Movement) (cid : Nat) : Int :=
  ((l.filter fun m => decide (m.client_id = cid)).map fun m =>
    if 0 < (vars m.variant_id).size_l then
      match m.mtype with
      | .OUT => m.qty
      | .IN => -m.qty
      | .DEFECT => -m.qty
      | .FULL => 0
    else 0).sum

/-! ### Balance Engine of `utils.py` -/

/-- `utils.effective_price`: the stored unit price if not null, else the
catalog price of the joined variant. -/
def effective_price (m : Movement) (v : Variant) : Option ℚ :=
  match m.unit_price_ttc with
  | some p => some p
  | none => v.price_ttc

/-- `utils.effective_deposit`: the stored deposit per keg if not null,
else `DEFAULT_DEPOSIT`. -/
def effective_deposit (m : Movement) : ℚ :=
  match m.deposit_per_keg with
  | some d => d
  | none => DEFAULT_DEPOSIT

/-- The `beer_eur` accumulation loop of `utils.summarize_client_for_index`
over the client's movements joined with their variants: only `OUT` rows
add `qty * (effective_price or 0.0)`. -/
def beer_eur_index (rows : List (Movement × Variant)) : ℚ :=
  rows.foldl
    (fun acc r =>
      if r.1.mtype = .OUT then acc + (r.1.qty : ℚ) * ((effective_price r.1 r.2).getD 0)
      else acc)
    0

/-- The `deposit_eur` accumulation loop of the same function: `OUT` rows
add `qty * effective_deposit`, `IN`/`DEFECT`/`FULL` rows subtract it. -/
def deposit_eur_index (rows : List (Movement × Variant)) : ℚ :=
  rows.foldl
    (fun acc r =>
      if r.1.mtype = .OUT then acc + (r.1.qty : ℚ) * effective_deposit r.1
      else acc - (r.1.qty : ℚ) * effective_deposit r.1)
    0

/-- `SUM(qty)` of one client's movements of one type
(the grouped-by-type query of `utils.summarize_client_for_index`). -/
def sumQtyBy (l : List Movement) (cid : Nat) (t : MType) : Int :=
  ((l.filter fun m => decide (m.client_id = cid) && decide (m.mtype = t)).map (·.qty)).sum

/-- The `kegs` total of `utils.summarize_client_for_index`:
`OUT − (IN + DEFECT + FULL)` summed over the whole client. -/
def kegs_index (l : List Movement) (cid : Nat) : Int :=
  sumQtyBy l cid .OUT - (sumQtyBy l cid .IN + sumQtyBy l cid .DEFECT + sumQtyBy l cid .FULL)

/-- `SUM(qty)` of one client's movements of one type on one variant
(the grouped query of `utils.get_open_kegs_by_variant`). -/
def sumQtyByVar (l : List Movement) (cid vid : Nat) (t : MType) : Int :=
  ((l.filter fun m =>
    decide (m.client_id = cid) && decide (m.variant_id = vid) && decide (m.mtype = t)).map
      (·.qty)).sum

/-- `utils.get_open_kegs_by_variant` at one variant:
`OUT − (IN + DEFECT + FULL)` for that variant, then clamped at `0`
(`if open_map[vid] < 0: open_map[vid] = 0`). -/
def get_open_kegs_by_variant (l : List Movement) (cid vid : Nat) : Int :=
  let o := sumQtyByVar l cid vid .OUT -
    (sumQtyByVar l cid vid .IN + sumQtyByVar l cid vid .DEFECT + sumQtyByVar l cid vid .FULL)
  if o < 0 then 0 else o

/-! ### Equipment aggregation of `app.py` -/

/-- `totals[k] += sign * eq[k]` over the five keys. -/
def addSigned (t : Eq5) (sign : Int) (e : Eq5) : Eq5 :=
  ⟨t.tireuse + sign * e.tireuse, t.co2 + sign * e.co2, t.comptoir + sign * e.comptoir,
   t.tonnelle + sign * e.tonnelle, t.ecocup + sign * e.ecocup⟩

/-- `if x < 0: x = 0` (the per-key clamp and the Python `max(·, 0)`). -/
def clamp0 (x : Int) : Int := if x < 0 then 0 else x

/-- The final clamp of `sum_equipment_for_client`
(`if totals[k] < 0: totals[k] = 0`). -/
def clampEq5 (t : Eq5) : Eq5 :=
  ⟨clamp0 t.tireuse, clamp0 t.co2, clamp0 t.comptoir, clamp0 t.tonnelle, clamp0 t.ecocup⟩

/-- `app.sum_equipment_for_client`: net loaned equipment of a client,
`+1` per `OUT` movement and `-1` otherwise, decoded from the notes,
clamped at `0` per key. -/
def sum_equipment_for_client (l : List Movement) (cid : Nat) : Eq5 :=
  clampEq5 ((l.filter fun m => decide (m.client_id = cid)).foldl
    (fun t m => addSigned t (if m.mtype = .OUT then 1 else -1) (unpack_equipment m.notes).1)
    zeroEq5)

/-! ### Inventory Tracker of `utils.py` -/

/-- Depot stock per variant; `get_or_create_inventory` starts absent rows
at `qty = 0`, so the state is a total map defaulting to `0`. -/
def Inventory : Type := Nat → Int

/-- Point update of the inventory map. -/
def invUpdate (inv : Inventory) (vid : Nat) (q : Int) : Inventory :=
  fun v => if v = vid then q else inv v

/-- `utils.apply_inventory_effect`: `OUT` decrements the variant's depot
stock by `qty`, `IN` increments it, `DEFECT` and `FULL` do nothing. -/
def apply_inventory_effect (mtype : MType) (vid : Nat) (qty : Int) (inv : Inventory) : Inventory :=
  match mtype with
  | .OUT => invUpdate inv vid (inv vid - qty)
  | .IN => invUpdate inv vid (inv vid + qty)
  | _ => inv

/-- `utils.apply_inventory_effect_reverse`: `OUT` increments, `IN`
decrements, `DEFECT` and `FULL` do nothing. -/
def apply_inventory_effect_reverse (mtype : MType) (vid : Nat) (qty : Int) (inv : Inventory) :
    Inventory :=
  match mtype with
  | .OUT => invUpdate inv vid (inv vid + qty)
  | .IN => invUpdate inv vid (inv vid - qty)
  | _ => inv

/-! ### The `movement_new` route of `app.py` (POST branch) -/

/-- `app.ECOCUP_WASH_PRICE = 0.10` €/recovered cup (the rational `1/10`,
written in normal form so that the kernel can evaluate comparisons). -/
def ECOCUP_WASH_PRICE : ℚ := ⟨1, 10, by decide, by decide⟩

/-- `app.ECOCUP_LOSS_PRICE = 1.00` €/missing cup. -/
def ECOCUP_LOSS_PRICE : ℚ := 1

/-- Variant id of the `"Matériel seul"` 0 L placeholder created by
`get_or_create_equipment_placeholder`. -/
def PLACEHOLDER_VARIANT_ID : Nat := 900

/-- Variant id of the `"Ecocup lavage"` 0 L service variant. -/
def WASH_VARIANT_ID : Nat := 901

/-- Variant id of the `"Ecocup perdu"` 0 L service variant. -/
def LOSS_VARIANT_ID : Nat := 902

/-- The validated POST form consumed by `movement_new`: posted client id,
optional catalog variant id, the five parsed equipment counts, quantity,
type (the form offers `OUT`/`IN`/`DEFECT`), optional raw unit price and
deposit, and the free-text note. -/
structure MovementForm where
  client_id : Nat
  variant_id : Option Nat
  eq : Eq5
  qty : Int
  mtype : MType
  unit_price_raw : Option ℚ
  deposit_raw : Option ℚ
  notes : List Char
deriving DecidableEq

/-- The application state touched by the route: the movement table and
the next auto-increment id the database will assign. -/
structure AppState where
  ledger : List Movement
  nextId : Nat
deriving DecidableEq

/-- The `flash(..., "danger")`-and-redirect rejections of the modelled
branches of `movement_new`. -/
inductive RecordError
  | missingReference
  | kegReturnExceedsStock
  | equipmentReturnExceedsLoan
deriving DecidableEq

/-- `any_equipment = any(v > 0 for v in eq.values())`. -/
def any_equipment (e : Eq5) : Bool :=
  decide (0 < e.tireuse) || decide (0 < e.co2) || decide (0 < e.comptoir) ||
  decide (0 < e.tonnelle) || decide (0 < e.ecocup)

/-- The `in_place_variant` aggregate of the `IN`/`DEFECT` validation:
`SUM(STOCK_EXPR)` over the client's movements on the posted variant whose
joined variant has `size_l > 0`. -/
def stock_in_place_variant (vars : Nat → Variant) (l : List Movement) (cid vid : Nat) : Int :=
  ((l.filter fun m =>
    decide (m.client_id = cid) && decide (m.variant_id = vid) &&
      decide (0 < (vars m.variant_id).size_l)).map STOCK_EXPR).sum

/-- The equipment-return validation: some non-ecocup key asks back more
than the client currently holds. -/
def equipment_exceeded (cur want : Eq5) : Bool :=
  decide (cur.tireuse < want.tireuse) || decide (cur.co2 < want.co2) ||
  decide (cur.comptoir < want.comptoir) || decide (cur.tonnelle < want.tonnelle)

/-- The synthetic wash-fee movement posted on a cup return:
`type OUT`, wash variant, `qty = returned`, price `0.10`, deposit `0`,
back-reference note. -/
def washMovement (id cid : Nat) (returned : Int) (mainId : Nat) : Movement :=
  ⟨id, .OUT, cid, WASH_VARIANT_ID, returned, some ECOCUP_WASH_PRICE, some 0,
    "Lavage Ecocup ".toList ++ intToChars returned ++ "u (lié au mouvement #".toList ++
      natToChars mainId ++ ")".toList⟩

/-- The synthetic loss-fee movement posted on a cup shortfall:
`type OUT`, loss variant, `qty = missing`, price `1.00`, deposit `0`,
back-reference note. -/
def lossMovement (id cid : Nat) (missing : Int) (mainId : Nat) : Movement :=
  ⟨id, .OUT, cid, LOSS_VARIANT_ID, missing, some ECOCUP_LOSS_PRICE, some 0,
    "Ecocup manquant ".toList ++ intToChars missing ++ "u (lié au mouvement #".toList ++
      natToChars mainId ++ ")".toList⟩

/-- The `app.movement_new` POST handler on the catalog-variant path
(`custom_name` empty, client id posted, `when` field empty), as one pure
transition on `AppState`:

1. resolve the variant (placeholder when only equipment was entered,
   rejection when neither a variant nor equipment is given);
2. default the deposit to `30` and the price to the variant's catalog
   price, both forced to `0` when `qty == 0`;
3. for `IN`/`DEFECT`: reject a keg return exceeding
   `max(in_place_variant, 0)` (only when `qty > 0`) and a non-ecocup
   equipment return exceeding the current loan;
4. insert the main movement (notes produced by `pack_equipment`);
5. for `IN`/`DEFECT`: recompute the held ecocup count on the ledger that
   already contains the flushed main movement, clamp the requested return
   to it, bill wash and loss fees as synthetic `OUT` movements, and
   rewrite the main note with `ecocup := returned + missing`. -/
def movement_new (vars : Nat → Variant) (s : AppState) (f : MovementForm) :
    Except RecordError AppState :=
  let anyEq := any_equipment f.eq
  let vidO : Option Nat :=
    match f.variant_id with
    | some vid => some vid
    | none => if anyEq then some PLACEHOLDER_VARIANT_ID else none
  match vidO with
  | none => .error .missingReference
  | some vid =>
    let qty := f.qty
    let deposit0 : ℚ := f.deposit_raw.getD 30
    let price0 : ℚ := f.unit_price_raw.getD (((vars vid).price_ttc).getD 0)
    let unit_price : ℚ := if qty = 0 then 0 else price0
    let deposit : ℚ := if qty = 0 then 0 else deposit0
    let isReturn : Bool := decide (f.mtype = .IN) || decide (f.mtype = .DEFECT)
    let kegReject : Bool := isReturn && decide (0 < qty) &&
      decide (clamp0 (stock_in_place_variant vars s.ledger f.client_id vid) < qty)
    if kegReject then .error .kegReturnExceedsStock
    else
      let eqReject : Bool := isReturn && anyEq &&
        equipment_exceeded (sum_equipment_for_client s.ledger f.client_id) f.eq
      if eqReject then .error .equipmentReturnExceedsLoan
      else
        let human := pyStrip f.notes
        let main : Movement :=
          ⟨s.nextId, f.mtype, f.client_id, vid, qty, some unit_price, some deposit,
            pack_equipment human f.eq⟩
        let l1 := s.ledger ++ [main]
        if isReturn then
          let current_ec := (sum_equipment_for_client l1 f.client_id).ecocup
          let returned0 := f.eq.ecocup
          let returned := if current_ec < returned0 then current_ec else returned0
          let missing := clamp0 (current_ec - returned)
          let l2 := if 0 < returned then
              l1 ++ [washMovement (s.nextId + 1) f.client_id returned s.nextId]
            else l1
          let l3 := if 0 < missing then
              l2 ++ [lossMovement (s.nextId + 1 + (if 0 < returned then 1 else 0))
                f.client_id missing s.nextId]
            else l2
          let extraParts : List (List Char) :=
            (if 0 < returned then [intToChars returned ++ " lavés".toList] else []) ++
            (if 0 < missing then [intToChars missing ++ " manquants".toList] else [])
          let extra_txt : List Char :=
            match extraParts with
            | [] => []
            | _ => " — ".toList ++ joinWith ", ".toList extraParts
          let eqAdj : Eq5 := { f.eq with ecocup := returned + missing }
          let newNotes := pack_equipment (human ++ extra_txt) eqAdj
          let l4 :=
            if 0 < returned + missing then
              l3.map fun m => if m.id = s.nextId then { m with notes := newNotes } else m
            else l3
          .ok ⟨l4, s.nextId + 1 + (if 0 < returned then 1 else 0) + (if 0 < missing then 1 else 0)⟩
        else .ok ⟨l1, s.nextId + 1⟩

/-- `app.movement_delete`: remove the movement with the given id from the
table (nothing else is touched). -/
def movement_delete (mid : Nat) (s : AppState) : AppState :=
  ⟨s.ledger.filter fun m => decide (m.id ≠ mid), s.nextId⟩

/-! ### Spec-side comparison formulas

The following definitions transcribe the formulas as the specification
words them; they exist to be compared against the definitions embedded
from the source. -/

/-- `Σ(qty × price)` of one client's movements of one type, with the price
read through `coalesce(unit_price_ttc, 0.0)` (the app-level price field). -/
def sumPriceByApp (l : List Movement) (cid : Nat) (t : MType) : ℚ :=
  ((l.filter fun m => decide (m.client_id = cid) && decide (m.mtype = t)).map
    fun m => (m.qty : ℚ) * coalesce0 m.unit_price_ttc).sum

/-- The spec formula for cumulative beer billed over the stored prices:
`Σ(qty × price | OUT) − Σ(qty × price | DEFECT, FULL)`. -/
def claim_beer_billed (l : List Movement) (cid : Nat) : ℚ :=
  sumPriceByApp l cid .OUT - (sumPriceByApp l cid .DEFECT + sumPriceByApp l cid .FULL)

/-- `Σ(qty × effective_price)` of the joined rows of one type. -/
def sumEffPriceBy (rows : List (Movement × Variant)) (t : MType) : ℚ :=
  ((rows.filter fun r => decide (r.1.mtype = t)).map
    fun r => (r.1.qty : ℚ) * ((effective_price r.1 r.2).getD 0)).sum

/-- The spec formula for cumulative beer billed over effective prices:
`Σ(qty × effective_price | OUT) − Σ(qty × effective_price | DEFECT, FULL)`. -/
def claim_beer_billed_rows (rows : List (Movement × Variant)) : ℚ :=
  sumEffPriceBy rows .OUT - (sumEffPriceBy rows .DEFECT + sumEffPriceBy rows .FULL)

/-- `Σ(qty × effective_deposit)` of the joined rows of one type. -/
def sumEffDepositBy (rows : List (Movement × Variant)) (t : MType) : ℚ :=
  ((rows.filter fun r => decide (r.1.mtype = t)).map
    fun r => (r.1.qty : ℚ) * effective_deposit r.1).sum

/-- The spec formula for the effective deposit of a movement:
`deposit_per_unit if not null, else 0`. -/
def claim_effective_deposit (m : Movement) : ℚ := m.deposit_per_keg.getD 0

/-- The spec formula for kegs in place of one client on one variant:
`Σ(qty | OUT) − Σ(qty | IN, DEFECT, FULL)`, no clamping. -/
def claim_kegs (l : List Movement) (cid vid : Nat) : Int :=
  sumQtyByVar l cid vid .OUT -
    (sumQtyByVar l cid vid .IN + sumQtyByVar l cid vid .DEFECT + sumQtyByVar l cid vid .FULL)

/-- `Σ(qty)` of one client's movements of one type on `size_l > 0`
variants (for comparison with the `in_place_total` aggregate). -/
def sumQtySized (vars : Nat → Variant) (l : List Movement) (cid : Nat) (t : MType) : Int :=
  ((l.filter fun m =>
    decide (m.client_id = cid) && decide (m.mtype = t) &&
      decide (0 < (vars m.variant_id).size_l)).map (·.qty)).sum

/-- The empty depot inventory (every variant at stock `0`). -/
def emptyInventory : Inventory := fun _ => 0

/-! ### Derived definitions used by the statements -/

/-- The characters produced by rendering a decimal digit. -/
def IsDigitChar (c : Char) : Prop := ∃ d, d < 10 ∧ c = digitChar d

/-- The five recognized keys, in the `EQ_KEYS` order. -/
def fiveKeys : List (List Char) := [tireuseKey, co2Key, comptoirKey, tonnelleKey, ecocupKey]

/-- The `key=value` parts rendered by `pack_equipment`. -/
def packParts (e : Eq5) : List (List Char) :=
  ((eqPairs e).filter fun p => decide (p.2 ≠ 0)).map fun p => p.1 ++ '=' :: intToChars p.2

/-- The main movement inserted by `movement_new` (explicit form): type and
quantity from the form, price defaulted to the catalog price, deposit
defaulted to 30, both zeroed when `qty = 0`, notes packed by the codec. -/
def outMainMovement (vars : Nat → Variant) (s : AppState) (f : MovementForm) (v : Nat) :
    Movement :=
  ⟨s.nextId, f.mtype, f.client_id, v, f.qty,
    some (if f.qty = 0 then 0 else f.unit_price_raw.getD (((vars v).price_ttc).getD 0)),
    some (if f.qty = 0 then 0 else f.deposit_raw.getD 30),
    pack_equipment (pyStrip f.notes) f.eq⟩

/-- Demo catalog for the concrete scenarios: variant 10 is a 20 L keg at
catalog price 68; every other id (placeholder, wash, loss) is a 0 L
service variant. -/
def demoVars : Nat → Variant := fun v => if v = 10 then ⟨20, some 68⟩ else ⟨0, some 0⟩

/-- Spec §8 scenario 7 through `movement_new`: `OUT qty=1 price=68
deposit=30`, then `DEFECT qty=1` with price and deposit omitted. -/
def defect_refund_state : Option AppState :=
  ((do
    let s1 ← movement_new demoVars ⟨[], 1⟩ ⟨7, some 10, zeroEq5, 1, .OUT, some 68, some 30, []⟩
    movement_new demoVars s1 ⟨7, some 10, zeroEq5, 1, .DEFECT, none, none, []⟩) :
    Except RecordError AppState).toOption

/-- Equipment-only `OUT` form handing `ec` reusable cups to client 7. -/
def cup_out_form (ec : Int) : MovementForm := ⟨7, none, ⟨0, 0, 0, 0, ec⟩, 0, .OUT, none, none, []⟩

/-- Equipment-only `IN` form returning `ec` reusable cups from client 7. -/
def cup_in_form (ec : Int) : MovementForm := ⟨7, none, ⟨0, 0, 0, 0, ec⟩, 0, .IN, none, none, []⟩

/-- State after handing `h` cups to client 7 through `movement_new`. -/
def cup_out_state (h : Int) : Option AppState :=
  (movement_new demoVars ⟨[], 1⟩ (cup_out_form h)).toOption

/-- State after handing `h` cups to client 7 and then recording an `IN`
movement marking `r` cups returned, both through `movement_new`. -/
def cup_return_state (h r : Int) : Option AppState :=
  match cup_out_state h with
  | some s1 => (movement_new demoVars s1 (cup_in_form r)).toOption
  | none => none

/-! ### Theorems -/

/-- The four movement types are pairwise distinct (simp helpers). -/
@[simp] theorem mtype_out_ne_in : MType.OUT ≠ MType.IN := by decide

@[simp] theorem mtype_out_ne_defect : MType.OUT ≠ MType.DEFECT := by decide

@[simp] theorem mtype_out_ne_full : MType.OUT ≠ MType.FULL := by decide

@[simp] theorem mtype_in_ne_out : MType.IN ≠ MType.OUT := by decide

@[simp] theorem mtype_in_ne_defect : MType.IN ≠ MType.DEFECT := by decide

@[simp] theorem mtype_in_ne_full : MType.IN ≠ MType.FULL := by decide

@[simp] theorem mtype_defect_ne_out : MType.DEFECT ≠ MType.OUT := by decide

@[simp] theorem mtype_defect_ne_in : MType.DEFECT ≠ MType.IN := by decide

@[simp] theorem mtype_defect_ne_full : MType.DEFECT ≠ MType.FULL := by decide

@[simp] theorem mtype_full_ne_out : MType.FULL ≠ MType.OUT := by decide

@[simp] theorem mtype_full_ne_in : MType.FULL ≠ MType.IN := by decide

@[simp] theorem mtype_full_ne_defect : MType.FULL ≠ MType.DEFECT := by decide


/-- C3 (counterexample): on an empty depot, an `IN` movement of quantity 1
raises the variant's depot stock to 1 (the claim says `IN` leaves stock
unchanged) and a `FULL` movement leaves it at 0 (the claim says `FULL`
adds `+quantity`). -/
theorem C3_counterexample :
    apply_inventory_effect .IN 5 1 emptyInventory 5 = 1 ∧ (1 : Int) ≠ 0 ∧
    apply_inventory_effect .FULL 5 1 emptyInventory 5 = 0 ∧ (0 : Int) ≠ 1 := by
  refine ⟨by decide, by decide, by decide, by decide⟩

/-- C3 (amended): for every movement applied to depot inventory, the stock
delta is `−quantity` for `OUT`, `+quantity` for `IN`, and `0` for `DEFECT`
and `FULL`. -/
theorem C3_inventory_effect_amended (vid : Nat) (q : Int) (inv : Inventory) :
    apply_inventory_effect .OUT vid q inv vid = inv vid - q ∧
    apply_inventory_effect .IN vid q inv vid = inv vid + q ∧
    apply_inventory_effect .DEFECT vid q inv = inv ∧
    apply_inventory_effect .FULL vid q inv = inv := by
  refine ⟨?_, ?_, rfl, rfl⟩ <;> simp [apply_inventory_effect, invUpdate]

/-- C9: the per-variant keg balance reported by
`get_open_kegs_by_variant` is never negative: it is the spec formula
`OUT − (IN + DEFECT + FULL)` clamped at `0`. -/
theorem C9_open_kegs_nonneg (l : List Movement) (cid vid : Nat) :
    0 ≤ get_open_kegs_by_variant l cid vid ∧
    get_open_kegs_by_variant l cid vid = clamp0 (claim_kegs l cid vid) := by
  constructor
  · show 0 ≤ (if claim_kegs l cid vid < 0 then 0 else claim_kegs l cid vid)
    split <;> omega
  · rfl

/-- The `in_place_total` aggregate in closed form: `OUT` minus `IN` and
`DEFECT` over `size_l > 0` variants; `FULL` movements contribute nothing. -/
theorem in_place_total_eq (vars : Nat → Variant) (l : List Movement) (cid : Nat) :
    in_place_total vars l cid =
      sumQtySized vars l cid .OUT - (sumQtySized vars l cid .IN + sumQtySized vars l cid .DEFECT) := by
  induction l with
  | nil => rfl
  | cons m l ih =>
    simp only [in_place_total, sumQtySized, List.filter_cons] at ih ⊢
    by_cases hc : m.client_id = cid
    · by_cases hs : 0 < (vars m.variant_id).size_l
      · cases hm : m.mtype <;> simp [hc, hs, hm] <;> omega
      · cases hm : m.mtype <;> simp [hc, hs, hm] <;> omega
    · simp [hc]
      omega

/-- C4 (counterexample): a client with a single `IN` movement of
quantity 1 has per-variant balance 0, not the `-1` required by the
claim's formula; and a client with `OUT 1` then `FULL 1` on a 20 L
variant still shows an app-level in-place total of 1, though the claim's
formula yields 0. -/
theorem C4_counterexample :
    get_open_kegs_by_variant [⟨1, .IN, 0, 5, 1, none, none, []⟩] 0 5 = 0 ∧
    claim_kegs [⟨1, .IN, 0, 5, 1, none, none, []⟩] 0 5 = -1 ∧ (0 : Int) ≠ -1 ∧
    in_place_total (fun _ => ⟨20, none⟩)
      [⟨1, .OUT, 0, 5, 1, some 68, some 30, []⟩, ⟨2, .FULL, 0, 5, 1, some 68, some 30, []⟩] 0 = 1 ∧
    sumQtyBy [⟨1, .OUT, 0, 5, 1, some 68, some 30, []⟩, ⟨2, .FULL, 0, 5, 1, some 68, some 30, []⟩]
        0 .OUT -
      (sumQtyBy [⟨1, .OUT, 0, 5, 1, some 68, some 30, []⟩, ⟨2, .FULL, 0, 5, 1, some 68, some 30, []⟩]
          0 .IN +
        sumQtyBy [⟨1, .OUT, 0, 5, 1, some 68, some 30, []⟩,
            ⟨2, .FULL, 0, 5, 1, some 68, some 30, []⟩] 0 .DEFECT +
        sumQtyBy [⟨1, .OUT, 0, 5, 1, some 68, some 30, []⟩,
            ⟨2, .FULL, 0, 5, 1, some 68, some 30, []⟩] 0 .FULL) = 0 ∧ (1 : Int) ≠ 0 := by
  refine ⟨by decide, by decide, by decide, by decide, by decide, by decide⟩

/-- C4 (amended): per variant, `get_open_kegs_by_variant` reports the
formula `OUT − (IN + DEFECT + FULL)` clamped at 0; the client-level
`kegs` total of `summarize_client_for_index` equals the unclamped
formula; and the app-level `in_place_total` counts only `size_l > 0`
variants and subtracts only `IN` and `DEFECT`, not `FULL`. -/
theorem C4_kegs_in_place_amended (vars : Nat → Variant) (l : List Movement) (cid vid : Nat) :
    get_open_kegs_by_variant l cid vid = clamp0 (claim_kegs l cid vid) ∧
    kegs_index l cid =
      sumQtyBy l cid .OUT - (sumQtyBy l cid .IN + sumQtyBy l cid .DEFECT + sumQtyBy l cid .FULL) ∧
    in_place_total vars l cid =
      sumQtySized vars l cid .OUT - (sumQtySized vars l cid .IN + sumQtySized vars l cid .DEFECT) := by
  exact ⟨rfl, rfl, in_place_total_eq vars l cid⟩

/-- The app-level beer aggregate in closed form: `OUT` minus `DEFECT`
only; `IN` and `FULL` movements contribute nothing. -/
theorem beer_billed_cum_eq (l : List Movement) (cid : Nat) :
    beer_billed_cum l cid = sumPriceByApp l cid .OUT - sumPriceByApp l cid .DEFECT := by
  induction l with
  | nil => simp [beer_billed_cum, sumPriceByApp]
  | cons m l ih =>
    simp only [beer_billed_cum, sumPriceByApp, List.filter_cons] at ih ⊢
    by_cases hc : m.client_id = cid
    · cases hm : m.mtype <;>
        simp [hc, hm, BEER_VALUE_EXPR] <;> linarith [ih]
    · simp [hc]
      linarith [ih]

/-- Accumulator form of the `beer_eur` loop of
`summarize_client_for_index`. -/
theorem beer_eur_foldl (rows : List (Movement × Variant)) (c : ℚ) :
    rows.foldl
      (fun acc r =>
        if r.1.mtype = .OUT then acc + (r.1.qty : ℚ) * ((effective_price r.1 r.2).getD 0)
        else acc) c = c + sumEffPriceBy rows .OUT := by
  induction rows generalizing c with
  | nil => simp [sumEffPriceBy]
  | cons r rows ih =>
    simp only [List.foldl_cons, sumEffPriceBy, List.filter_cons] at ih ⊢
    by_cases hm : r.1.mtype = .OUT
    · simp only [hm, if_pos rfl, ih]
      simp [hm]
      ring
    · simp [hm, ih]

/-- The index-card beer total in closed form: only `OUT` rows are summed;
no movement type is ever subtracted. -/
theorem beer_eur_index_eq (rows : List (Movement × Variant)) :
    beer_eur_index rows = sumEffPriceBy rows .OUT := by
  have h := beer_eur_foldl rows 0
  simpa [beer_eur_index] using h

/-- Accumulator form of the `deposit_eur` loop of
`summarize_client_for_index`. -/
theorem deposit_eur_foldl (rows : List (Movement × Variant)) (c : ℚ) :
    rows.foldl
      (fun acc r =>
        if r.1.mtype = .OUT then acc + (r.1.qty : ℚ) * effective_deposit r.1
        else acc - (r.1.qty : ℚ) * effective_deposit r.1) c =
      c + (sumEffDepositBy rows .OUT -
        (sumEffDepositBy rows .IN + sumEffDepositBy rows .DEFECT + sumEffDepositBy rows .FULL)) := by
  induction rows generalizing c with
  | nil => simp [sumEffDepositBy]
  | cons r rows ih =>
    simp only [List.foldl_cons, sumEffDepositBy, List.filter_cons] at ih ⊢
    cases hm : r.1.mtype <;> simp [hm, ih] <;> ring

/-- The index-card deposit total in closed form:
`Σ(qty × effective_deposit | OUT) − Σ(qty × effective_deposit | IN, DEFECT, FULL)`. -/
theorem deposit_eur_index_eq (rows : List (Movement × Variant)) :
    deposit_eur_index rows =
      sumEffDepositBy rows .OUT -
        (sumEffDepositBy rows .IN + sumEffDepositBy rows .DEFECT + sumEffDepositBy rows .FULL) := by
  have h := deposit_eur_foldl rows 0
  simpa [deposit_eur_index] using h

/-- C1 (counterexample): a single `FULL` return of one keg at stored
price 68.  The spec formula deducts 68 from beer billed, but both the
app-level aggregate and the index-card loop leave beer billed at 0
(neither ever deducts `FULL`). -/
theorem C1_counterexample :
    beer_billed_cum [⟨1, .FULL, 0, 5, 1, some 68, some 30, []⟩] 0 = 0 ∧
    claim_beer_billed [⟨1, .FULL, 0, 5, 1, some 68, some 30, []⟩] 0 = -68 ∧
    beer_eur_index [(⟨1, .FULL, 0, 5, 1, some 68, some 30, []⟩, ⟨20, some 68⟩)] = 0 ∧
    claim_beer_billed_rows [(⟨1, .FULL, 0, 5, 1, some 68, some 30, []⟩, ⟨20, some 68⟩)] = -68 ∧
    (0 : ℚ) ≠ -68 := by
  refine ⟨?_, ?_, ?_, ?_, by norm_num⟩
  · norm_num [beer_billed_cum, BEER_VALUE_EXPR, List.filter_cons, List.filter_nil]
  · norm_num [claim_beer_billed, sumPriceByApp, coalesce0, List.filter_cons, List.filter_nil]
  · norm_num [beer_eur_index, BEER_VALUE_EXPR, List.filter_cons, List.filter_nil]
  · norm_num [claim_beer_billed_rows, sumEffPriceBy, effective_price, List.filter_cons,
      List.filter_nil]

/-- C1 (amended): the app-level cumulative beer billed is
`Σ(qty × price | OUT) − Σ(qty × price | DEFECT)` — `IN` and `FULL`
contribute nothing — while the index-card loop of
`summarize_client_for_index` bills `Σ(qty × effective_price | OUT)` with
no deduction for any return type. -/
theorem C1_beer_billed_amended (l : List Movement) (cid : Nat)
    (rows : List (Movement × Variant)) :
    beer_billed_cum l cid = sumPriceByApp l cid .OUT - sumPriceByApp l cid .DEFECT ∧
    beer_eur_index rows = sumEffPriceBy rows .OUT :=
  ⟨beer_billed_cum_eq l cid, beer_eur_index_eq rows⟩

/-- C2 (counterexample): the Balance Engine's `effective_deposit` of a
null-deposit movement is `30`, not `0`; and the spec scenario (OUT qty=1
deposit=30, then DEFECT qty=1 with deposit omitted) recorded through
`movement_new` stores deposit 30 on the `DEFECT` leg, leaving
`deposit_in_play` at `0`, not `30`. -/
theorem C2_counterexample :
    effective_deposit ⟨2, .DEFECT, 7, 10, 1, none, none, []⟩ = 30 ∧ (30 : ℚ) ≠ 0 ∧
    claim_effective_deposit ⟨2, .DEFECT, 7, 10, 1, none, none, []⟩ = 0 ∧
    defect_refund_state = some ⟨[⟨1, .OUT, 7, 10, 1, some 68, some 30, []⟩,
      ⟨2, .DEFECT, 7, 10, 1, some 68, some 30, []⟩], 3⟩ ∧
    deposit_in_play [⟨1, .OUT, 7, 10, 1, some 68, some 30, []⟩,
      ⟨2, .DEFECT, 7, 10, 1, some 68, some 30, []⟩] 7 = 0 ∧ (0 : ℚ) ≠ 30 := by
  refine ⟨rfl, by norm_num, rfl, by decide, ?_, by norm_num⟩
  norm_num [deposit_in_play, DEPOSIT_VALUE_EXPR, coalesce0, List.filter_cons, List.filter_nil]

/-- C2 (amended): the effective deposit used by the Balance Engine is the
stored deposit when not null and `DEFAULT_DEPOSIT = 30` when null, so
deposit in play is `Σ(qty × effective_deposit | OUT) − Σ(qty ×
effective_deposit | IN, DEFECT, FULL)` with the 30 default on every null
leg; and since `movement_new` also defaults an omitted deposit to 30 at
write time, the scenario `OUT qty=1 deposit=30` then `DEFECT qty=1
deposit omitted` ends with `deposit_in_play = 0`, the 30 being reversed. -/
theorem C2_effective_deposit_amended (rows : List (Movement × Variant)) :
    deposit_eur_index rows =
      sumEffDepositBy rows .OUT -
        (sumEffDepositBy rows .IN + sumEffDepositBy rows .DEFECT + sumEffDepositBy rows .FULL) ∧
    (defect_refund_state.map fun s => deposit_in_play s.ledger 7) = some 0 := by
  refine ⟨deposit_eur_index_eq rows, ?_⟩
  have h : defect_refund_state = some ⟨[⟨1, .OUT, 7, 10, 1, some 68, some 30, []⟩,
      ⟨2, .DEFECT, 7, 10, 1, some 68, some 30, []⟩], 3⟩ := by decide
  rw [h, Option.map_some']
  norm_num [deposit_in_play, DEPOSIT_VALUE_EXPR, coalesce0, List.filter_cons, List.filter_nil]

/-- On the `OUT` path with a posted variant, `movement_new` performs no
validation at all and appends exactly the main movement. -/
theorem movement_new_out_eq (vars : Nat → Variant) (s : AppState) (f : MovementForm) (v : Nat)
    (hm : f.mtype = .OUT) (hv : f.variant_id = some v) :
    movement_new vars s f = .ok ⟨s.ledger ++ [outMainMovement vars s f v], s.nextId + 1⟩ := by
  simp [movement_new, hv, hm, outMainMovement]

/-- C8 (counterexample): recording `OUT qty = -1` on catalog variant 10
through `movement_new` is not rejected: it returns success and writes a
movement with quantity `-1` (price and deposit defaulted). -/
theorem C8_counterexample :
    (movement_new demoVars ⟨[], 1⟩ ⟨7, some 10, zeroEq5, -1, .OUT, none, none, []⟩).toOption =
      some ⟨[⟨1, .OUT, 7, 10, -1, some 68, some 30, []⟩], 2⟩ := by decide

/-- C8 (amended): recording a movement with a negative quantity is not
rejected: on the `OUT` path with a posted variant, `movement_new`
accepts any quantity — negative included — and writes the movement with
that quantity unchanged. -/
theorem C8_negative_qty_amended (vars : Nat → Variant) (s : AppState) (f : MovementForm)
    (v : Nat) (hm : f.mtype = .OUT) (hv : f.variant_id = some v) (_hq : f.qty < 0) :
    movement_new vars s f = .ok ⟨s.ledger ++ [outMainMovement vars s f v], s.nextId + 1⟩ ∧
    (outMainMovement vars s f v).qty = f.qty :=
  ⟨movement_new_out_eq vars s f v hm hv, rfl⟩

/-- C8 witness: the amended statement at the concrete negative-quantity
form of the counterexample. -/
theorem C8_negative_qty_amended_witness :
    (movement_new demoVars ⟨[], 1⟩ ⟨7, some 10, zeroEq5, -1, .OUT, none, none, []⟩ =
      .ok ⟨[] ++ [outMainMovement demoVars ⟨[], 1⟩
        ⟨7, some 10, zeroEq5, -1, .OUT, none, none, []⟩ 10], 1 + 1⟩) ∧
    (outMainMovement demoVars ⟨[], 1⟩ ⟨7, some 10, zeroEq5, -1, .OUT, none, none, []⟩ 10).qty =
      -1 :=
  C8_negative_qty_amended demoVars ⟨[], 1⟩ ⟨7, some 10, zeroEq5, -1, .OUT, none, none, []⟩ 10
    rfl rfl (by decide)

/-- `ECOCUP_WASH_PRICE` as the usual fraction. -/
theorem ECOCUP_WASH_PRICE_eq : ECOCUP_WASH_PRICE = 1 / 10 := by
  rw [ECOCUP_WASH_PRICE, Rat.mk'_eq_divInt]
  norm_num [Rat.divInt_eq_div]

/-- C5 (counterexample): client 7 holds 2 cups (beer billed 0); an `IN`
movement marking 1 cup returned is recorded as movement 2, spawning the
synthetic wash-fee movement 3; deleting movement 2 right away leaves the
wash movement in the ledger, so beer billed is `0.10`, not the `0` it was
before the record. -/
theorem C5_counterexample :
    cup_out_state 2 =
      some ⟨[⟨1, .OUT, 7, PLACEHOLDER_VARIANT_ID, 0, some 0, some 0, "||EQ|ecocup=2".toList⟩],
        2⟩ ∧
    beer_billed_cum [⟨1, .OUT, 7, PLACEHOLDER_VARIANT_ID, 0, some 0, some 0,
      "||EQ|ecocup=2".toList⟩] 7 = 0 ∧
    ((cup_return_state 2 1).map fun s => (movement_delete 2 s).ledger) = some
      [⟨1, .OUT, 7, PLACEHOLDER_VARIANT_ID, 0, some 0, some 0, "||EQ|ecocup=2".toList⟩,
       ⟨3, .OUT, 7, WASH_VARIANT_ID, 1, some ECOCUP_WASH_PRICE, some 0,
         "Lavage Ecocup 1u (lié au mouvement #2)".toList⟩] ∧
    beer_billed_cum
      [⟨1, .OUT, 7, PLACEHOLDER_VARIANT_ID, 0, some 0, some 0, "||EQ|ecocup=2".toList⟩,
       ⟨3, .OUT, 7, WASH_VARIANT_ID, 1, some ECOCUP_WASH_PRICE, some 0,
         "Lavage Ecocup 1u (lié au mouvement #2)".toList⟩] 7 = ECOCUP_WASH_PRICE ∧
    ECOCUP_WASH_PRICE ≠ 0 := by
  refine ⟨by decide, ?_, by decide, ?_, ?_⟩
  · norm_num [beer_billed_cum, BEER_VALUE_EXPR, List.filter_cons, List.filter_nil]
  · norm_num [beer_billed_cum, BEER_VALUE_EXPR, coalesce0, List.filter_cons, List.filter_nil,
      ECOCUP_WASH_PRICE_eq]
  · norm_num [ECOCUP_WASH_PRICE_eq]

/-- C5 (amended): the Inventory Tracker reversal is an exact inverse of
the forward effect for every movement type; and deleting a freshly
recorded movement restores the ledger exactly when the movement spawned
no synthetic cup-fee movements (`OUT` path), whereas an `IN`/`DEFECT`
that billed wash or loss fees leaves those fee movements behind (the
counterexample), so client balances are not restored. -/
theorem C5_reversal_amended :
    (∀ (t : MType) (vid : Nat) (q : Int) (inv : Inventory),
      apply_inventory_effect_reverse t vid q (apply_inventory_effect t vid q inv) = inv) ∧
    (∀ (vars : Nat → Variant) (s : AppState) (f : MovementForm) (v : Nat) (s2 : AppState),
      f.mtype = .OUT → f.variant_id = some v → movement_new vars s f = .ok s2 →
      (∀ m ∈ s.ledger, m.id ≠ s.nextId) → (movement_delete s.nextId s2).ledger = s.ledger) := by
  constructor
  · intro t vid q inv
    funext x
    cases t <;>
      simp only [apply_inventory_effect, apply_inventory_effect_reverse, invUpdate] <;>
      by_cases hx : x = vid <;> simp [hx]
  · intro vars s f v s2 hm hv hrec hfresh
    rw [movement_new_out_eq vars s f v hm hv] at hrec
    injection hrec with hrec
    subst hrec
    simp only [movement_delete, List.filter_append]
    have h1 : s.ledger.filter (fun m => decide (m.id ≠ s.nextId)) = s.ledger := by
      apply List.filter_eq_self.2
      intro m hmem
      simpa using hfresh m hmem
    have h2 : [outMainMovement vars s f v].filter (fun m => decide (m.id ≠ s.nextId)) = [] := by
      simp [outMainMovement]
    rw [h1, h2, List.append_nil]

/-- C5 witness: the amended statement at concrete inputs — inventory
round trip on variant 5, and delete-after-record of an `OUT` movement on
an empty ledger. -/
theorem C5_reversal_amended_witness :
    apply_inventory_effect_reverse .OUT 5 3 (apply_inventory_effect .OUT 5 3 emptyInventory) =
      emptyInventory ∧
    (movement_delete 1 ⟨[] ++ [outMainMovement demoVars ⟨[], 1⟩
      ⟨7, some 10, zeroEq5, 2, .OUT, none, none, []⟩ 10], 1 + 1⟩).ledger =
      ([] : List Movement) :=
  ⟨C5_reversal_amended.1 .OUT 5 3 emptyInventory,
   C5_reversal_amended.2 demoVars ⟨[], 1⟩ ⟨7, some 10, zeroEq5, 2, .OUT, none, none, []⟩ 10
     ⟨[] ++ [outMainMovement demoVars ⟨[], 1⟩ ⟨7, some 10, zeroEq5, 2, .OUT, none, none, []⟩ 10],
       1 + 1⟩
     rfl rfl
     (movement_new_out_eq demoVars ⟨[], 1⟩ ⟨7, some 10, zeroEq5, 2, .OUT, none, none, []⟩ 10
       rfl rfl)
     (by simp)⟩

/-- C6 (code evaluation): client 7 holds 1 cup and an `IN` movement marks
1 cup returned.  The claim (and the code comment) demand wash quantity
`min(1,1) = 1` and loss `0`; but because the held-cup count is recomputed
on the ledger that already contains the flushed return movement, the
computed balance is `0`, the return is clamped to `0`, and no wash or
loss movement is emitted at all. -/
theorem C6_cup_billing_code_eval :
    cup_return_state 1 1 = some
      ⟨[⟨1, .OUT, 7, PLACEHOLDER_VARIANT_ID, 0, some 0, some 0, "||EQ|ecocup=1".toList⟩,
        ⟨2, .IN, 7, PLACEHOLDER_VARIANT_ID, 0, some 0, some 0, "||EQ|ecocup=1".toList⟩], 3⟩ ∧
    ((cup_return_state 1 1).map fun s =>
      ((s.ledger.filter fun m => decide (m.variant_id = WASH_VARIANT_ID)).length,
       (s.ledger.filter fun m => decide (m.variant_id = LOSS_VARIANT_ID)).length)) =
      some (0, 0) :=
  ⟨by decide, by decide⟩

/-- C10 (code evaluation): client 7 holds 2 cups and an `IN` movement
marks 1 cup returned.  The claim says the note is rewritten to the full
held count (2) and the net cup balance drops to 0; the code rewrites the
note to `returned + missing = 1` and the net cup balance afterwards is
`1`, not `0` (the decoded ecocup counts of the three ledger rows are
`[2, 1, 0]`). -/
theorem C10_cup_balance_code_eval :
    ((cup_return_state 2 1).map fun s => (sum_equipment_for_client s.ledger 7).ecocup) =
      some 1 ∧ (1 : Int) ≠ 0 ∧
    ((cup_return_state 2 1).map fun s =>
      s.ledger.map fun m => (unpack_equipment m.notes).1.ecocup) = some [2, 1, 0] :=
  ⟨by decide, by decide, by decide⟩

/-! ### Codec round-trip: digit-string lemmas -/

/-- Digit characters parse back to their value. -/
theorem digitVal_digitChar (n : Nat) (h : n < 10) : digitVal (digitChar n) = some n := by
  interval_cases n <;> decide

/-- Properties of digit characters used by the codec proofs: digit
characters are not whitespace and are distinct from all of the codec's
separator and sign characters. -/
theorem isDigitChar_props (c : Char) (h : IsDigitChar c) :
    isSpaceB c = false ∧ c ≠ ';' ∧ c ≠ '=' ∧ c ≠ '-' ∧ c ≠ '+' ∧ c ≠ '|' ∧ c ≠ ' ' := by
  obtain ⟨d, hd, rfl⟩ := h
  interval_cases d <;> refine ⟨by decide, by decide, by decide, by decide, by decide, by decide,
    by decide⟩

/-- `natToCharsAux` produces a nonempty string of digit characters. -/
theorem natToCharsAux_spec (fuel : Nat) :
    ∀ n, n < fuel →
      natToCharsAux fuel n ≠ [] ∧ ∀ c ∈ natToCharsAux fuel n, IsDigitChar c := by
  induction fuel with
  | zero => intro n hn; omega
  | succ fuel ih =>
    intro n hn
    by_cases h10 : n < 10
    · refine ⟨by simp [natToCharsAux, h10], ?_⟩
      intro c hc
      simp [natToCharsAux, h10] at hc
      exact ⟨n, h10, hc⟩
    · have hdiv : n / 10 < fuel := by
        have := Nat.div_lt_self (by omega : 0 < n) (by omega : 1 < 10)
        omega
      obtain ⟨hne, hall⟩ := ih (n / 10) hdiv
      constructor
      · simp [natToCharsAux, h10]
      · intro c hc
        simp only [natToCharsAux, if_neg h10, List.mem_append, List.mem_singleton] at hc
        rcases hc with hc | hc
        · exact hall c hc
        · exact ⟨n % 10, Nat.mod_lt n (by omega), hc⟩

/-- Folding the parse step over an appended digit. -/
theorem parseDigitsAux_append (xs : List Char) (c : Char) :
    parseDigitsAux (xs ++ [c]) =
      match parseDigitsAux xs, digitVal c with
      | some a, some d => some (10 * a + d)
      | _, _ => none := by
  simp [parseDigitsAux, List.foldl_append]

/-- Parsing inverts the fuel-driven rendering. -/
theorem parseDigitsAux_natToCharsAux (fuel : Nat) :
    ∀ n, n < fuel → parseDigitsAux (natToCharsAux fuel n) = some n := by
  induction fuel with
  | zero => intro n hn; omega
  | succ fuel ih =>
    intro n hn
    by_cases h10 : n < 10
    · simp [natToCharsAux, h10, parseDigitsAux, digitVal_digitChar n h10]
    · have hdiv : n / 10 < fuel := by
        have := Nat.div_lt_self (by omega : 0 < n) (by omega : 1 < 10)
        omega
      rw [natToCharsAux, if_neg h10, parseDigitsAux_append, ih (n / 10) hdiv,
        digitVal_digitChar (n % 10) (Nat.mod_lt n (by omega))]
      exact congrArg some (by omega)

/-- `parseDigits` agrees with the parse fold on nonempty strings. -/
theorem parseDigits_of_ne_nil (xs : List Char) (h : xs ≠ []) :
    parseDigits xs = parseDigitsAux xs := by
  cases xs with
  | nil => exact absurd rfl h
  | cons c t => rfl

/-- `natToChars` is nonempty and all digits. -/
theorem natToChars_spec (n : Nat) :
    natToChars n ≠ [] ∧ ∀ c ∈ natToChars n, IsDigitChar c :=
  natToCharsAux_spec (n + 1) n (Nat.lt_succ_self n)

/-- Decimal parse of the decimal rendering of a natural number. -/
theorem parseDigits_natToChars (n : Nat) : parseDigits (natToChars n) = some n := by
  rw [parseDigits_of_ne_nil _ (natToChars_spec n).1]
  exact parseDigitsAux_natToCharsAux (n + 1) n (Nat.lt_succ_self n)

/-! ### Codec round-trip: strip lemmas -/

/-- `dropWhile` leaves a list whose head fails the predicate. -/
theorem dropWhile_head_not (p : Char → Bool) (l : List Char) :
    l.dropWhile p = [] ∨ ∃ c t, l.dropWhile p = c :: t ∧ p c = false := by
  induction l with
  | nil => exact Or.inl rfl
  | cons a l ih =>
    by_cases h : p a = true
    · simpa [List.dropWhile_cons, h] using ih
    · exact Or.inr ⟨a, l, by simp [List.dropWhile_cons, h], by simpa using h⟩

/-- `dropWhile` yields a suffix. -/
theorem dropWhile_is_suffix (p : Char → Bool) (l : List Char) :
    ∃ u, u ++ l.dropWhile p = l := by
  refine ⟨l.takeWhile p, ?_⟩
  exact List.takeWhile_append_dropWhile p l

/-- The right strip yields a prefix. -/
theorem pyStripR_is_prefix_decomp (l : List Char) : ∃ w, l = pyStripR l ++ w := by
  obtain ⟨u, hu⟩ := dropWhile_is_suffix isSpaceB l.reverse
  refine ⟨u.reverse, ?_⟩
  have := congrArg List.reverse hu
  simpa [pyStripR] using this.symm

/-- Decomposition of a string around its strip: `xs = u ++ (strip ++ w)`. -/
theorem pyStrip_decomp (xs : List Char) : ∃ u w, xs = u ++ (pyStrip xs ++ w) := by
  obtain ⟨w, hw⟩ := pyStripR_is_prefix_decomp (pyStripL xs)
  refine ⟨xs.takeWhile isSpaceB, w, ?_⟩
  conv_lhs => rw [← List.takeWhile_append_dropWhile isSpaceB xs]
  rw [show xs.dropWhile isSpaceB = pyStripL xs from rfl, hw]
  rfl

/-- The head of a nonempty strip result is not whitespace. -/
theorem pyStrip_head (xs : List Char) :
    pyStrip xs = [] ∨ ∃ c t, pyStrip xs = c :: t ∧ isSpaceB c = false := by
  rcases dropWhile_head_not isSpaceB xs with h | ⟨c, t, h, hc⟩
  · left
    simp [pyStrip, pyStripL, h, pyStripR]
  · rcases dropWhile_head_not isSpaceB (c :: t).reverse with h2 | ⟨d, t2, h2, hd⟩
    · left
      have h3 : pyStripR (c :: t) = [] := by
        unfold pyStripR
        rw [h2]
        rfl
      simp [pyStrip, pyStripL, h, h3]
    · have hpre : ∃ w, (c :: t) = pyStripR (c :: t) ++ w := pyStripR_is_prefix_decomp (c :: t)
      obtain ⟨w, hw⟩ := hpre
      rcases hps : pyStripR (c :: t) with _ | ⟨c2, t3⟩
      · left
        simp [pyStrip, pyStripL, h, hps]
      · right
        rw [hps] at hw
        have : c2 = c := by
          have := hw
          simp at this
          exact this.1.symm
        refine ⟨c2, t3, ?_, by rw [this]; exact hc⟩
        simp [pyStrip, pyStripL, h, hps]

/-- The last character of a nonempty strip result is not whitespace. -/
theorem pyStrip_last (xs : List Char) :
    pyStrip xs = [] ∨ ∃ ys d, pyStrip xs = ys ++ [d] ∧ isSpaceB d = false := by
  rcases dropWhile_head_not isSpaceB (pyStripL xs).reverse with h | ⟨d, t, h, hd⟩
  · left
    simp [pyStrip, pyStripR, h]
  · right
    refine ⟨t.reverse, d, ?_, hd⟩
    simp [pyStrip, pyStripR, h]

/-- Left strip is the identity when the head is not whitespace. -/
theorem pyStripL_cons_false (c : Char) (t : List Char) (h : isSpaceB c = false) :
    pyStripL (c :: t) = c :: t := by
  simp [pyStripL, List.dropWhile_cons, h]

/-- Right strip is the identity when the last character is not whitespace. -/
theorem pyStripR_append_false (ys : List Char) (d : Char) (h : isSpaceB d = false) :
    pyStripR (ys ++ [d]) = ys ++ [d] := by
  unfold pyStripR
  rw [List.reverse_append]
  simp [List.dropWhile_cons, h]

/-- Stripping is idempotent. -/
theorem pyStrip_idem (xs : List Char) : pyStrip (pyStrip xs) = pyStrip xs := by
  rcases pyStrip_head xs with h0 | ⟨c, t, hh, hc⟩
  · rw [h0]; rfl
  · rcases pyStrip_last xs with h0 | ⟨ys, d, hl, hd⟩
    · rw [h0]; rfl
    · have h1 : pyStripL (pyStrip xs) = pyStrip xs := by
        rw [hh]; exact pyStripL_cons_false c t hc
      have h2 : pyStripR (pyStrip xs) = pyStrip xs := by
        rw [hl]; exact pyStripR_append_false ys d hd
      show pyStripR (pyStripL (pyStrip xs)) = pyStrip xs
      rw [h1, h2]

/-- Stripping a whitespace-free string is the identity. -/
theorem pyStrip_no_space (xs : List Char) (h : ∀ c ∈ xs, isSpaceB c = false) :
    pyStrip xs = xs := by
  cases hx : xs with
  | nil => rfl
  | cons c t =>
    have hmemc : c ∈ xs := by rw [hx]; exact List.mem_cons_self c t
    have h1 : pyStripL (c :: t) = c :: t := pyStripL_cons_false c t (h c hmemc)
    rcases hrev : (c :: t).reverse with _ | ⟨d, t2⟩
    · exact absurd hrev (by simp)
    · have hdmem : d ∈ xs := by
        rw [hx, ← List.mem_reverse, hrev]
        exact List.mem_cons_self d t2
      have hdec : c :: t = t2.reverse ++ [d] := by
        have := congrArg List.reverse hrev
        simpa using this
      show pyStripR (pyStripL (c :: t)) = c :: t
      rw [h1, hdec]
      exact pyStripR_append_false t2.reverse d (h d hdmem)

/-- Stripping removes a single trailing blank from an already-stripped
string. -/
theorem pyStrip_append_space (z : List Char) (hz : pyStrip z = z) :
    pyStrip (z ++ [' ']) = z := by
  rcases pyStrip_head z with h0 | ⟨c, t, hh, hc⟩
  · rw [h0] at hz
    rw [← hz]
    rfl
  · rcases pyStrip_last z with h0 | ⟨ys, d, hl, hd⟩
    · rw [h0] at hz
      rw [← hz]
      rfl
    · have hzc : z = c :: t := by rw [← hz, hh]
      have hzd : z = ys ++ [d] := by rw [← hz, hl]
      have h1 : pyStripL (z ++ [' ']) = z ++ [' '] := by
        rw [hzc, List.cons_append]
        exact pyStripL_cons_false c (t ++ [' ']) hc
      have hrz : z.reverse = d :: ys.reverse := by
        rw [hzd, List.reverse_append]
        rfl
      have e1 : List.dropWhile isSpaceB (' ' :: (d :: ys.reverse)) = d :: ys.reverse := by
        rw [List.dropWhile_cons, if_pos (by decide), List.dropWhile_cons, if_neg (by simp [hd])]
      have h2 : pyStripR (z ++ [' ']) = z := by
        unfold pyStripR
        have hrev2 : (z ++ [' ']).reverse = ' ' :: (d :: ys.reverse) := by
          rw [List.reverse_append, hrz]
          rfl
        rw [hrev2, e1, show (d :: ys.reverse).reverse = ys ++ [d] by simp, ← hzd]
      show pyStripR (pyStripL (z ++ [' '])) = z
      rw [h1, h2]

/-! ### Codec round-trip: integer rendering round trip -/

/-- Parsing inverts the decimal rendering of a natural number, through
the strip-and-int idiom of `unpack_equipment`. -/
theorem pyIntOr0_natToChars (n : Nat) : pyIntOr0 (natToChars n) = (n : Int) := by
  obtain ⟨hne, hdig⟩ := natToChars_spec n
  have hstrip : pyStrip (natToChars n) = natToChars n :=
    pyStrip_no_space _ (fun c hc => (isDigitChar_props c (hdig c hc)).1)
  unfold pyIntOr0
  rw [hstrip]
  cases hnc : natToChars n with
  | nil => exact absurd hnc hne
  | cons c rest =>
    have hc : IsDigitChar c := hdig c (by rw [hnc]; exact List.mem_cons_self c rest)
    obtain ⟨-, -, -, hminus, hplus, -, -⟩ := isDigitChar_props c hc
    have hred : pyInt (c :: rest) = (parseDigits (c :: rest)).map (fun k => (k : Int)) := by
      simp [pyInt, hminus, hplus]
    show ((pyInt (c :: rest)).getD 0) = (n : Int)
    rw [hred, ← hnc, parseDigits_natToChars]
    rfl

/-- Rendering of a non-negative integer is the natural rendering. -/
theorem intToChars_of_nonneg (v : Int) (h : 0 ≤ v) : intToChars v = natToChars v.natAbs := by
  unfold intToChars
  rw [if_neg (by omega)]

/-- Parse-of-render round trip for the non-negative codec values. -/
theorem pyIntOr0_intToChars (v : Int) (h : 0 ≤ v) : pyIntOr0 (intToChars v) = v := by
  rw [intToChars_of_nonneg v h, pyIntOr0_natToChars]
  exact Int.natAbs_of_nonneg h

/-- The rendering of a non-negative value is nonempty and all digits. -/
theorem intToChars_spec (v : Int) (h : 0 ≤ v) :
    intToChars v ≠ [] ∧ ∀ c ∈ intToChars v, IsDigitChar c := by
  rw [intToChars_of_nonneg v h]
  exact natToChars_spec v.natAbs

/-! ### Codec round-trip: split lemmas -/

/-- Soundness of the first-occurrence split: the pieces reassemble. -/
theorem splitFirst_sound (sep : List Char) (xs : List Char) :
    ∀ a b, splitFirst sep xs = some (a, b) → xs = a ++ sep ++ b := by
  induction xs with
  | nil =>
    intro a b h
    by_cases hsep : sep = []
    · simp [splitFirst, hsep] at h
      obtain ⟨ha, hb⟩ := h
      subst ha
      subst hb
      simp [hsep]
    · simp [splitFirst, hsep] at h
  | cons c rest ih =>
    intro a b h
    rw [splitFirst] at h
    by_cases hs : startsWithL sep (c :: rest) = true
    · rw [if_pos hs] at h
      injection h with h2
      have hp := congrArg Prod.fst h2
      have hq := congrArg Prod.snd h2
      simp at hp hq
      have htake : (c :: rest).take sep.length = sep := by
        have := of_decide_eq_true hs
        exact this
      subst hp hq
      conv_lhs => rw [← List.take_append_drop sep.length (c :: rest)]
      rw [htake]
      simp
    · rw [if_neg hs] at h
      cases hrec : splitFirst sep rest with
      | none => rw [hrec] at h; exact absurd h (by simp)
      | some p =>
        obtain ⟨h1, t1⟩ := p
        rw [hrec] at h
        injection h with h2
        have hp := congrArg Prod.fst h2
        have hq := congrArg Prod.snd h2
        simp at hp hq
        subst hp hq
        have := ih h1 t1 hrec
        rw [List.cons_append, List.cons_append, ← this]

/-- Completeness: any explicit occurrence makes the split succeed. -/
theorem splitFirst_isSome_of_decomp (sep : List Char) (hsep : sep ≠ []) (b : List Char) :
    ∀ a, (splitFirst sep (a ++ sep ++ b)).isSome = true := by
  intro a
  induction a with
  | nil =>
    cases hsepc : sep with
    | nil => exact absurd hsepc hsep
    | cons s ss =>
      have hsw : startsWithL sep (sep ++ b) = true := by
        unfold startsWithL
        rw [List.take_left]
        simp
      subst hsepc
      rw [List.nil_append, List.cons_append, splitFirst, if_pos (by rwa [← List.cons_append])]
      rfl
  | cons c a2 ih =>
    rw [List.cons_append, List.cons_append, splitFirst]
    by_cases hs : startsWithL sep (c :: (a2 ++ sep ++ b)) = true
    · rw [if_pos hs]
      rfl
    · rw [if_neg hs]
      cases hrec : splitFirst sep (a2 ++ sep ++ b) with
      | none => rw [hrec] at ih; exact absurd ih (by simp)
      | some p =>
        obtain ⟨x, y⟩ := p
        simp

/-- Containment is equivalent to an explicit decomposition. -/
theorem containsSub_eq_true_iff (sep xs : List Char) (hsep : sep ≠ []) :
    containsSub sep xs = true ↔ ∃ a b, xs = a ++ sep ++ b := by
  constructor
  · intro h
    unfold containsSub at h
    obtain ⟨⟨a, b⟩, hab⟩ := Option.isSome_iff_exists.1 h
    exact ⟨a, b, splitFirst_sound sep xs a b hab⟩
  · rintro ⟨a, b, rfl⟩
    exact splitFirst_isSome_of_decomp sep hsep b a

/-- A string whose strip contains the separator contains it as well
(contrapositive form). -/
theorem containsSub_pyStrip_false (sep xs : List Char) (hsep : sep ≠ [])
    (h : containsSub sep xs = false) : containsSub sep (pyStrip xs) = false := by
  by_contra hx
  have ht : containsSub sep (pyStrip xs) = true := by
    revert hx
    cases containsSub sep (pyStrip xs) <;> simp
  obtain ⟨a, b, hab⟩ := (containsSub_eq_true_iff sep _ hsep).1 ht
  obtain ⟨u, w, huw⟩ := pyStrip_decomp xs
  have hx2 : xs = (u ++ a) ++ sep ++ (b ++ w) := by
    rw [huw, hab]
    simp [List.append_assoc]
  have := (containsSub_eq_true_iff sep xs hsep).2 ⟨u ++ a, b ++ w, hx2⟩
  rw [h] at this
  exact Bool.noConfusion this

/-- If every nonempty suffix of `a` fails to start an occurrence, the
first occurrence of the separator in `a ++ sep ++ b` lies exactly at the
designated boundary. -/
theorem splitFirst_boundary (sep b : List Char) (hsep : sep ≠ []) :
    ∀ a, (∀ a2, a2 ≠ [] → a2 <:+ a → startsWithL sep (a2 ++ sep ++ b) = false) →
      splitFirst sep (a ++ sep ++ b) = some (a, b) := by
  intro a
  induction a with
  | nil =>
    intro _
    cases hsepc : sep with
    | nil => exact absurd hsepc hsep
    | cons s ss =>
      subst hsepc
      have hsw : startsWithL (s :: ss) ((s :: ss) ++ b) = true := by
        unfold startsWithL
        rw [List.take_left]
        simp
      rw [List.cons_append] at hsw
      rw [List.nil_append, List.cons_append, splitFirst, if_pos hsw, ← List.cons_append,
        List.drop_left]
  | cons c a2 ih =>
    intro hocc
    have hs : startsWithL sep (c :: (a2 ++ (sep ++ b))) = false := by
      have := hocc (c :: a2) (by simp) (List.suffix_refl _)
      simpa [List.append_assoc] using this
    rw [List.cons_append, List.cons_append, splitFirst, if_neg (by simp [hs])]
    have hrec := ih (fun a3 h3 hsuf => hocc a3 h3 (hsuf.trans (List.suffix_cons c a2)))
    rw [hrec]

/-- Splitting on a single character at its first occurrence. -/
theorem splitFirst_char (c : Char) (a b : List Char) (h : c ∉ a) :
    splitFirst [c] (a ++ c :: b) = some (a, b) := by
  have he : a ++ c :: b = a ++ [c] ++ b := by simp
  rw [he]
  apply splitFirst_boundary [c] b (by simp) a
  intro a2 h2 hsuf
  cases a2 with
  | nil => exact absurd rfl h2
  | cons d t =>
    have hd : d ∈ a := hsuf.subset (List.mem_cons_self d t)
    have hdc : ¬(d = c) := fun hh => h (hh ▸ hd)
    unfold startsWithL
    simp [hdc]

/-- Splitting at the separator when the human part is empty. -/
theorem splitFirst_SEP_nil (b : List Char) : splitFirst SEP (SEP ++ b) = some ([], b) := by
  have h := splitFirst_boundary SEP b (by decide) []
    (fun a2 h2 hsuf => absurd (List.suffix_nil.1 hsuf) h2)
  simpa using h

/-- Splitting at the separator after `comment ++ blank`: the separator
has no blank, so no occurrence can start inside the comment part. -/
theorem splitFirst_SEP (clean b : List Char) (hclean : containsSub SEP clean = false) :
    splitFirst SEP ((clean ++ [' ']) ++ SEP ++ b) = some (clean ++ [' '], b) := by
  apply splitFirst_boundary SEP b (by decide)
  intro a2 h2 hsuf
  obtain ⟨u, hu⟩ := hsuf
  rcases hrev : a2.reverse with _ | ⟨z, t⟩
  · exact absurd (by simpa using congrArg List.reverse hrev) h2
  · have ha2 : a2 = t.reverse ++ [z] := by
      have := congrArg List.reverse hrev
      simpa using this
    have hu2 : (u ++ t.reverse) ++ [z] = clean ++ [' '] := by
      rw [List.append_assoc, ← ha2]
      exact hu
    obtain ⟨huc, hz⟩ := List.append_inj' hu2 rfl
    have hzsp : z = ' ' := by simpa using hz
    by_contra hx
    have hsw : startsWithL SEP (a2 ++ SEP ++ b) = true := by
      revert hx
      cases startsWithL SEP (a2 ++ SEP ++ b) <;> simp
    have hpre : SEP <+: (a2 ++ (SEP ++ b)) := by
      have htake := of_decide_eq_true hsw
      rw [List.append_assoc] at htake
      exact List.prefix_iff_eq_take.2 htake.symm
    have ha2pre : a2 <+: (a2 ++ (SEP ++ b)) := List.prefix_append a2 (SEP ++ b)
    have hspnb : (' ' : Char) ∉ SEP := by decide
    rcases List.prefix_or_prefix_of_prefix hpre ha2pre with hps | hsp
    · by_cases hlen : SEP.length ≤ t.reverse.length
      · have hpre2 : t.reverse <+: a2 := ⟨[z], ha2.symm⟩
        have hps2 : SEP <+: t.reverse := List.prefix_of_prefix_length_le hps hpre2 hlen
        obtain ⟨t3, ht3⟩ := hps2
        have hdec : clean = u ++ SEP ++ t3 := by
          rw [← huc, List.append_assoc, ht3]
        have hct := (containsSub_eq_true_iff SEP clean (by decide)).2 ⟨u, t3, hdec⟩
        rw [hclean] at hct
        exact Bool.noConfusion hct
      · have hlen2 : a2.length ≤ SEP.length := by
          rw [ha2]
          rw [List.length_append]
          simp only [List.length_singleton]
          omega
        have heq : SEP = a2 := hps.eq_of_length (le_antisymm hps.length_le hlen2)
        have hmem : (' ' : Char) ∈ SEP := by
          rw [heq, ha2, ← hzsp]
          simp
        exact hspnb hmem
    · have hmem : z ∈ SEP := hsp.subset (by rw [ha2]; simp)
      rw [hzsp] at hmem
      exact hspnb hmem

/-- `splitOnChar` never returns the empty list of parts. -/
theorem splitOnChar_ne_nil (c : Char) (xs : List Char) : splitOnChar c xs ≠ [] := by
  induction xs with
  | nil => simp [splitOnChar]
  | cons x t ih =>
    rw [splitOnChar]
    cases h : splitOnChar c t with
    | nil => simp
    | cons p rest =>
      by_cases hx : x = c <;> simp [hx]

/-- Splitting a separator-free string yields that single part. -/
theorem splitOnChar_of_not_mem (c : Char) (xs : List Char) (h : c ∉ xs) :
    splitOnChar c xs = [xs] := by
  induction xs with
  | nil => rfl
  | cons x t ih =>
    have hx : ¬(x = c) := fun he => h (he ▸ List.mem_cons_self x t)
    have ht : c ∉ t := fun hm => h (List.mem_cons_of_mem x hm)
    rw [splitOnChar, ih ht]
    simp [hx]

/-- Splitting after a separator-free first chunk peels it off. -/
theorem splitOnChar_append (c : Char) (p : List Char) (ys : List Char) (hp : c ∉ p) :
    splitOnChar c (p ++ c :: ys) = p :: splitOnChar c ys := by
  induction p with
  | nil =>
    rw [List.nil_append, splitOnChar]
    cases hys : splitOnChar c ys with
    | nil => exact absurd hys (splitOnChar_ne_nil c ys)
    | cons h t => simp
  | cons x p ih =>
    have hx : ¬(x = c) := fun he => hp (he ▸ List.mem_cons_self x p)
    have hp2 : c ∉ p := fun hm => hp (List.mem_cons_of_mem x hm)
    rw [List.cons_append, splitOnChar, ih hp2]
    simp [hx]

/-- Splitting inverts joining for separator-free parts. -/
theorem splitOnChar_joinWith (c : Char) (parts : List (List Char)) (hne : parts ≠ [])
    (h : ∀ p ∈ parts, c ∉ p) :
    splitOnChar c (joinWith [c] parts) = parts := by
  induction parts with
  | nil => exact absurd rfl hne
  | cons p rest ih =>
    cases rest with
    | nil =>
      show splitOnChar c p = [p]
      exact splitOnChar_of_not_mem c p (h p (List.mem_cons_self p []))
    | cons q rest2 =>
      have hj : joinWith [c] (p :: q :: rest2) = p ++ (c :: joinWith [c] (q :: rest2)) := by
        rw [show joinWith [c] (p :: q :: rest2) = p ++ [c] ++ joinWith [c] (q :: rest2) from rfl,
          List.append_assoc]
        rfl
      rw [hj, splitOnChar_append c p _ (h p (List.mem_cons_self p (q :: rest2))),
        ih (by simp) (fun r hr => h r (List.mem_cons_of_mem p hr))]

/-! ### Codec round-trip: decoding the pairs -/

/-- `setEqKey` at each concrete key. -/
theorem setEqKey_tireuse (d : Eq5) (v : Int) : setEqKey d tireuseKey v = { d with tireuse := v } := by
  unfold setEqKey
  rw [if_pos rfl]

/-- `setEqKey` at `co2`. -/
theorem setEqKey_co2 (d : Eq5) (v : Int) : setEqKey d co2Key v = { d with co2 := v } := by
  unfold setEqKey
  rw [if_neg (by decide), if_pos rfl]

/-- `setEqKey` at `comptoir`. -/
theorem setEqKey_comptoir (d : Eq5) (v : Int) :
    setEqKey d comptoirKey v = { d with comptoir := v } := by
  unfold setEqKey
  rw [if_neg (by decide), if_neg (by decide), if_pos rfl]

/-- `setEqKey` at `tonnelle`. -/
theorem setEqKey_tonnelle (d : Eq5) (v : Int) :
    setEqKey d tonnelleKey v = { d with tonnelle := v } := by
  unfold setEqKey
  rw [if_neg (by decide), if_neg (by decide), if_neg (by decide), if_pos rfl]

/-- `setEqKey` at `ecocup`. -/
theorem setEqKey_ecocup (d : Eq5) (v : Int) : setEqKey d ecocupKey v = { d with ecocup := v } := by
  unfold setEqKey
  rw [if_neg (by decide), if_neg (by decide), if_neg (by decide), if_neg (by decide), if_pos rfl]

/-- Decoding one encoded pair stores the value under its key. -/
theorem applyPair_encode (d : Eq5) (k : List Char) (v : Int) (hk : k ∈ fiveKeys) (hv : 0 ≤ v) :
    applyPair d (k ++ '=' :: intToChars v) = setEqKey d k v := by
  have hkne : '=' ∉ k := by
    simp only [fiveKeys, List.mem_cons, List.mem_singleton, List.not_mem_nil, or_false] at hk
    rcases hk with rfl | rfl | rfl | rfl | rfl <;> decide
  have hlower : lowerList (pyStrip k) = k := by
    simp only [fiveKeys, List.mem_cons, List.mem_singleton, List.not_mem_nil, or_false] at hk
    rcases hk with rfl | rfl | rfl | rfl | rfl <;> decide
  unfold applyPair
  rw [splitFirst_char '=' k (intToChars v) hkne]
  show setEqKey d (lowerList (pyStrip k)) (pyIntOr0 (intToChars v)) = setEqKey d k v
  rw [hlower, pyIntOr0_intToChars v hv]

/-- Decoding the encoded pair list is folding the raw updates. -/
theorem foldl_applyPair_encode (kvs : List (List Char × Int)) :
    ∀ d, (∀ p ∈ kvs, p.1 ∈ fiveKeys ∧ 0 ≤ p.2) →
      ((kvs.map fun p => p.1 ++ '=' :: intToChars p.2).foldl applyPair d =
        kvs.foldl (fun d p => setEqKey d p.1 p.2) d) := by
  induction kvs with
  | nil => intro d _; rfl
  | cons p rest ih =>
    intro d h
    obtain ⟨hk, hv⟩ := h p (List.mem_cons_self p rest)
    simp only [List.map_cons, List.foldl_cons]
    rw [applyPair_encode d p.1 p.2 hk hv]
    exact ih _ (fun q hq => h q (List.mem_cons_of_mem p hq))

/-- Folding the raw updates over the nonzero pairs rebuilds the
dictionary. -/
theorem setEqKey_foldl_eqPairs (e : Eq5) :
    ((eqPairs e).filter fun p => decide (p.2 ≠ 0)).foldl (fun d p => setEqKey d p.1 p.2)
      zeroEq5 = e := by
  obtain ⟨e1, e2, e3, e4, e5⟩ := e
  by_cases h1 : e1 = 0 <;> by_cases h2 : e2 = 0 <;> by_cases h3 : e3 = 0 <;>
    by_cases h4 : e4 = 0 <;> by_cases h5 : e5 = 0 <;>
    simp [eqPairs, List.filter_cons, h1, h2, h3, h4, h5, zeroEq5,
      setEqKey_tireuse, setEqKey_co2, setEqKey_comptoir, setEqKey_tonnelle, setEqKey_ecocup]

/-! ### Codec round-trip: the encoded block -/

/-- `pack_equipment`, phrased through `packParts`. -/
theorem pack_equipment_def (notes : List Char) (e : Eq5) :
    pack_equipment notes e =
      match packParts e with
      | [] => pyStrip notes
      | _ => pyStrip (pyStrip notes ++ ' ' :: (SEP ++ joinWith [';'] (packParts e))) := rfl

/-- If no key renders, the whole dictionary is zero. -/
theorem packParts_nil (e : Eq5) (h : packParts e = []) : e = zeroEq5 := by
  obtain ⟨e1, e2, e3, e4, e5⟩ := e
  simp only [packParts, eqPairs, List.map_eq_nil_iff, List.filter_eq_nil_iff, List.mem_cons,
    List.mem_singleton] at h
  have h1 := h (tireuseKey, e1) (by simp)
  have h2 := h (co2Key, e2) (by simp)
  have h3 := h (comptoirKey, e3) (by simp)
  have h4 := h (tonnelleKey, e4) (by simp)
  have h5 := h (ecocupKey, e5) (by simp)
  simp at h1 h2 h3 h4 h5
  simp [zeroEq5, h1, h2, h3, h4, h5]

/-- Every element of the filtered pair list is one of the five keyed
pairs with a non-negative value. -/
theorem eqPairs_filter_shape (e : Eq5)
    (hv : 0 ≤ e.tireuse ∧ 0 ≤ e.co2 ∧ 0 ≤ e.comptoir ∧ 0 ≤ e.tonnelle ∧ 0 ≤ e.ecocup) :
    ∀ p ∈ (eqPairs e).filter fun p => decide (p.2 ≠ 0), p.1 ∈ fiveKeys ∧ 0 ≤ p.2 := by
  intro p hp
  have hmem := List.mem_of_mem_filter hp
  simp only [eqPairs, List.mem_cons, List.mem_singleton] at hmem
  obtain ⟨hv1, hv2, hv3, hv4, hv5⟩ := hv
  rcases hmem with rfl | rfl | rfl | rfl | hmem
  · exact ⟨by simp [fiveKeys], hv1⟩
  · exact ⟨by simp [fiveKeys], hv2⟩
  · exact ⟨by simp [fiveKeys], hv3⟩
  · exact ⟨by simp [fiveKeys], hv4⟩
  · rcases hmem with rfl | hmem
    · exact ⟨by simp [fiveKeys], hv5⟩
    · exact absurd hmem (List.not_mem_nil p)

/-- Every rendered part is key ++ `=` ++ digits for a recognized key. -/
theorem packParts_shape (e : Eq5)
    (hv : 0 ≤ e.tireuse ∧ 0 ≤ e.co2 ∧ 0 ≤ e.comptoir ∧ 0 ≤ e.tonnelle ∧ 0 ≤ e.ecocup) :
    ∀ p ∈ packParts e, ∃ k v, k ∈ fiveKeys ∧ 0 ≤ v ∧ p = k ++ '=' :: intToChars v := by
  intro p hp
  simp only [packParts, List.mem_map] at hp
  obtain ⟨q, hq, rfl⟩ := hp
  obtain ⟨hk, hval⟩ := eqPairs_filter_shape e hv q hq
  exact ⟨q.1, q.2, hk, hval, rfl⟩

/-- A rendered part contains no semicolon. -/
theorem part_no_semi (k : List Char) (v : Int) (hk : k ∈ fiveKeys) (hv : 0 ≤ v) :
    (';' : Char) ∉ (k ++ '=' :: intToChars v) := by
  intro hmem
  rcases List.mem_append.1 hmem with h | h
  · simp only [fiveKeys, List.mem_cons, List.mem_singleton, List.not_mem_nil, or_false] at hk
    rcases hk with rfl | rfl | rfl | rfl | rfl <;> revert h <;> decide
  · rcases List.mem_cons.1 h with h2 | h2
    · exact absurd h2 (by decide)
    · have := (intToChars_spec v hv).2 ';' h2
      exact absurd rfl (isDigitChar_props ';' this).2.1

/-- A rendered part starts with a non-blank character (the key head). -/
theorem part_head (k : List Char) (v : Int) (hk : k ∈ fiveKeys) :
    ∃ c t, (k ++ '=' :: intToChars v) = c :: t ∧ isSpaceB c = false := by
  simp only [fiveKeys, List.mem_cons, List.mem_singleton, List.not_mem_nil, or_false] at hk
  rcases hk with rfl | rfl | rfl | rfl | rfl <;>
    exact ⟨_, _, rfl, by decide⟩

/-- A rendered part ends with a digit (hence non-blank). -/
theorem part_last (k : List Char) (v : Int) (hv : 0 ≤ v) :
    ∃ q d, (k ++ '=' :: intToChars v) = q ++ [d] ∧ isSpaceB d = false := by
  obtain ⟨hne, hdig⟩ := intToChars_spec v hv
  rcases List.eq_nil_or_concat (intToChars v) with h | ⟨q2, d, hd⟩
  · exact absurd h hne
  · refine ⟨k ++ '=' :: q2, d, ?_, ?_⟩
    · rw [hd]
      simp
    · have hdc : d ∈ intToChars v := by
        rw [hd]
        simp
      exact (isDigitChar_props d (hdig d hdc)).1

/-- The joined block starts with the first part's head. -/
theorem joinWith_head (sep : List Char) (p : List Char) (rest : List (List Char)) (c : Char)
    (t : List Char) (hp : p = c :: t) :
    ∃ t2, joinWith sep (p :: rest) = c :: t2 := by
  cases rest with
  | nil => exact ⟨t, hp⟩
  | cons q rest2 =>
    refine ⟨t ++ sep ++ joinWith sep (q :: rest2), ?_⟩
    show p ++ sep ++ joinWith sep (q :: rest2) = c :: (t ++ sep ++ joinWith sep (q :: rest2))
    rw [hp]
    simp

/-- The joined block ends with the last part's last character. -/
theorem joinWith_last (sep : List Char) (parts : List (List Char)) (hne : parts ≠ [])
    (h : ∀ p ∈ parts, ∃ q d, p = q ++ [d] ∧ isSpaceB d = false) :
    ∃ q d, joinWith sep parts = q ++ [d] ∧ isSpaceB d = false := by
  induction parts with
  | nil => exact absurd rfl hne
  | cons p rest ih =>
    cases rest with
    | nil => exact h p (List.mem_cons_self p [])
    | cons r rest2 =>
      obtain ⟨q, d, hq, hd⟩ := ih (by simp) (fun x hx => h x (List.mem_cons_of_mem p hx))
      refine ⟨p ++ sep ++ q, d, ?_, hd⟩
      show p ++ sep ++ joinWith sep (r :: rest2) = p ++ sep ++ q ++ [d]
      rw [hq]
      simp

/-- A string with non-blank head and last is already stripped. -/
theorem pyStrip_of_head_last (xs : List Char) (hh : ∃ c t, xs = c :: t ∧ isSpaceB c = false)
    (hl : ∃ q d, xs = q ++ [d] ∧ isSpaceB d = false) : pyStrip xs = xs := by
  obtain ⟨c, t, rfl, hc⟩ := hh
  obtain ⟨q, d, hqd, hd⟩ := hl
  show pyStripR (pyStripL (c :: t)) = c :: t
  rw [pyStripL_cons_false c t hc, hqd]
  exact pyStripR_append_false q d hd

/-- `unpack_equipment` on a nonempty string. -/
theorem unpack_equipment_ne_nil (xs : List Char) (h : xs ≠ []) :
    unpack_equipment xs =
      match splitFirst SEP xs with
      | some (human, eqpart) =>
        (((splitOnChar ';' (pyStrip eqpart)).foldl applyPair zeroEq5), pyStrip human)
      | none => (zeroEq5, pyStrip xs) := by
  cases xs with
  | nil => exact absurd rfl h
  | cons c t => rfl

/-- Normal form of a nonempty encoding: the outer strip only removes the
spurious blank of an empty comment. -/
theorem pack_norm (notes : List Char) (e : Eq5) (hne : packParts e ≠ [])
    (hlast : ∃ q d, joinWith [';'] (packParts e) = q ++ [d] ∧ isSpaceB d = false) :
    pack_equipment notes e =
      if pyStrip notes = [] then SEP ++ joinWith [';'] (packParts e)
      else pyStrip notes ++ ' ' :: (SEP ++ joinWith [';'] (packParts e)) := by
  obtain ⟨q, d, hqd, hd⟩ := hlast
  have hstep : pack_equipment notes e =
      pyStrip (pyStrip notes ++ ' ' :: (SEP ++ joinWith [';'] (packParts e))) := by
    rw [pack_equipment_def]
    cases hpp : packParts e with
    | nil => exact absurd hpp hne
    | cons p rest => rfl
  rw [hstep]
  by_cases hcl : pyStrip notes = []
  · rw [if_pos hcl, hcl, List.nil_append]
    have h1 : pyStripL (' ' :: (SEP ++ joinWith [';'] (packParts e))) =
        SEP ++ joinWith [';'] (packParts e) := by
      show List.dropWhile isSpaceB (' ' :: (SEP ++ joinWith [';'] (packParts e))) = _
      rw [List.dropWhile_cons, if_pos (by decide)]
      show List.dropWhile isSpaceB ('|' :: (['|', 'E', 'Q', '|'] ++ joinWith [';'] (packParts e))) = _
      rw [List.dropWhile_cons, if_neg (by decide)]
      rfl
    show pyStripR (pyStripL (' ' :: (SEP ++ joinWith [';'] (packParts e)))) = _
    rw [h1]
    have h2 : SEP ++ joinWith [';'] (packParts e) = (SEP ++ q) ++ [d] := by
      rw [hqd, List.append_assoc]
    rw [h2]
    exact pyStripR_append_false (SEP ++ q) d hd
  · rw [if_neg hcl]
    rcases pyStrip_head notes with h0 | ⟨c, t, hct, hc⟩
    · exact absurd h0 hcl
    · have h1 : pyStripL (pyStrip notes ++ ' ' :: (SEP ++ joinWith [';'] (packParts e))) =
          pyStrip notes ++ ' ' :: (SEP ++ joinWith [';'] (packParts e)) := by
        rw [hct, List.cons_append]
        exact pyStripL_cons_false c _ hc
      show pyStripR (pyStripL _) = _
      rw [h1]
      have h2 : pyStrip notes ++ ' ' :: (SEP ++ joinWith [';'] (packParts e)) =
          (pyStrip notes ++ ' ' :: (SEP ++ q)) ++ [d] := by
        rw [hqd]
        simp
      rw [h2]
      exact pyStripR_append_false _ d hd

/-- C7: the codec round trip.  For every dictionary of non-negative
counts on the five recognized keys and every comment that does not
contain the separator token, decoding the encoding returns the counts
exactly and the trimmed comment verbatim. -/
theorem C7_codec_roundtrip (notes : List Char) (e : Eq5)
    (hv : 0 ≤ e.tireuse ∧ 0 ≤ e.co2 ∧ 0 ≤ e.comptoir ∧ 0 ≤ e.tonnelle ∧ 0 ≤ e.ecocup)
    (hsep : containsSub SEP notes = false) :
    unpack_equipment (pack_equipment notes e) = (e, pyStrip notes) := by
  have hclean : containsSub SEP (pyStrip notes) = false :=
    containsSub_pyStrip_false SEP notes (by decide) hsep
  cases hpp : packParts e with
  | nil =>
    have he : e = zeroEq5 := packParts_nil e hpp
    have hpack : pack_equipment notes e = pyStrip notes := by
      rw [pack_equipment_def, hpp]
    rw [hpack]
    cases hcl : pyStrip notes with
    | nil => rw [he]; rfl
    | cons c t =>
      rw [unpack_equipment_ne_nil (c :: t) (by simp)]
      have hnone : splitFirst SEP (c :: t) = none := by
        rw [hcl] at hclean
        unfold containsSub at hclean
        cases hsf : splitFirst SEP (c :: t) with
        | none => rfl
        | some p => rw [hsf] at hclean; exact absurd hclean (by simp)
      rw [hnone, he]
      have : pyStrip (c :: t) = c :: t := by
        rw [← hcl]
        exact pyStrip_idem notes
      rw [this]
  | cons p0 prest =>
    have hne : packParts e ≠ [] := by rw [hpp]; simp
    have hshape := packParts_shape e hv
    have hp0 : p0 ∈ packParts e := by rw [hpp]; exact List.mem_cons_self p0 prest
    obtain ⟨k0, v0, hk0, hv0, hp0eq⟩ := hshape p0 hp0
    obtain ⟨c0, t0, hct, hc0⟩ := part_head k0 v0 hk0
    have hhead : ∃ c t, joinWith [';'] (packParts e) = c :: t ∧ isSpaceB c = false := by
      rw [hpp]
      obtain ⟨t2, ht2⟩ := joinWith_head [';'] p0 prest c0 t0 (hp0eq.trans hct)
      exact ⟨c0, t2, ht2, hc0⟩
    have hlastall : ∀ p ∈ packParts e, ∃ q d, p = q ++ [d] ∧ isSpaceB d = false := by
      intro p hp
      obtain ⟨k, v, hk, hv2, rfl⟩ := hshape p hp
      exact part_last k v hv2
    have hlast : ∃ q d, joinWith [';'] (packParts e) = q ++ [d] ∧ isSpaceB d = false :=
      joinWith_last [';'] (packParts e) hne hlastall
    have hsemi : ∀ p ∈ packParts e, (';' : Char) ∉ p := by
      intro p hp
      obtain ⟨k, v, hk, hv2, rfl⟩ := hshape p hp
      exact part_no_semi k v hk hv2
    have hbody : pyStrip (joinWith [';'] (packParts e)) = joinWith [';'] (packParts e) :=
      pyStrip_of_head_last _ hhead hlast
    have hsplitparts : splitOnChar ';' (joinWith [';'] (packParts e)) = packParts e :=
      splitOnChar_joinWith ';' (packParts e) hne hsemi
    have hfold : (packParts e).foldl applyPair zeroEq5 = e := by
      show (((eqPairs e).filter fun p => decide (p.2 ≠ 0)).map
        fun p => p.1 ++ '=' :: intToChars p.2).foldl applyPair zeroEq5 = e
      rw [foldl_applyPair_encode _ zeroEq5 (eqPairs_filter_shape e hv)]
      exact setEqKey_foldl_eqPairs e
    rw [pack_norm notes e hne hlast]
    by_cases hcl : pyStrip notes = []
    · rw [if_pos hcl, hcl]
      rw [unpack_equipment_ne_nil _ (by simp [SEP])]
      rw [splitFirst_SEP_nil (joinWith [';'] (packParts e))]
      show (List.foldl applyPair zeroEq5 (splitOnChar ';'
        (pyStrip (joinWith [';'] (packParts e)))), pyStrip ([] : List Char)) = (e, [])
      rw [hbody, hsplitparts, hfold]
      rfl
    · rw [if_neg hcl]
      have hform : pyStrip notes ++ ' ' :: (SEP ++ joinWith [';'] (packParts e)) =
          (pyStrip notes ++ [' ']) ++ SEP ++ joinWith [';'] (packParts e) := by
        simp
      rw [hform]
      rw [unpack_equipment_ne_nil _ (by simp [SEP])]
      rw [splitFirst_SEP (pyStrip notes) (joinWith [';'] (packParts e)) hclean]
      show (List.foldl applyPair zeroEq5 (splitOnChar ';'
        (pyStrip (joinWith [';'] (packParts e)))), pyStrip (pyStrip notes ++ [' '])) =
        (e, pyStrip notes)
      rw [hbody, hsplitparts, hfold, pyStrip_append_space (pyStrip notes) (pyStrip_idem notes)]

/-- C7 witness: the round trip at a concrete comment and count
dictionary. -/
theorem C7_codec_roundtrip_witness :
    unpack_equipment (pack_equipment "  pour le match de samedi ".toList ⟨1, 0, 2, 0, 50⟩) =
      (⟨1, 0, 2, 0, 50⟩, pyStrip "  pour le match de samedi ".toList) :=
  C7_codec_roundtrip "  pour le match de samedi ".toList ⟨1, 0, 2, 0, 50⟩
    (by refine ⟨by decide, by decide, by decide, by decide, by decide⟩) (by decide)
